import Mathlib

/-
Verification development for the Parsinator brief-to-task pipeline
(src/parsinator: models.py, id_manager.py, dependency_mapper.py,
enhanced_generator.py, parser.p.py).

The Python code is shallowly embedded as executable Lean definitions:
  * Python ints are modelled as Int, floats (confidence scores, which are
    only ever compared and averaged) as Rat, strings as String.
  * Python dicts that are used as ordered key/value maps are modelled as
    association lists that preserve the dict's insertion-order semantics
    (overwriting a key keeps its position; iteration is in insertion order).
  * `datetime` values are modelled as the opaque ISO strings they are
    serialized to (the pipeline never inspects them beyond round-tripping).
  * Functions that can raise are modelled with Except String.
  * File I/O is an external collaborator: functions that read files are
    modelled over the already-read value (the parsed tasks.json document,
    or a parse oracle for brief files).
-/

namespace Parsinator

/-! ## String helpers (substring test, one-shot split, word splitting)
mirroring the Python operations `needle in hay`, `s.split(sep, 1)`,
`s.split()` and `re.findall(r"\w+", s)`. -/

/-- Test whether the first list is an initial segment of the second. -/
def charsLeadWith : List Char → List Char → Bool
  | [], _ => true
  | _ :: _, [] => false
  | a :: as, b :: bs => a == b && charsLeadWith as bs

/-- Test whether the first list occurs contiguously inside the second. -/
def charsHaveRun : List Char → List Char → Bool
  | n, [] => n.isEmpty
  | n, c :: rest => charsLeadWith n (c :: rest) || charsHaveRun n rest

/-- Python's `needle in hay` substring test. -/
def strHas (hay needle : String) : Bool :=
  charsHaveRun needle.data hay.data

/-- Split a character list at the first occurrence of the separator,
returning none when the separator does not occur. -/
def charsSplitOnce (sep : List Char) : List Char → Option (List Char × List Char)
  | [] => if sep.isEmpty then some ([], []) else none
  | c :: rest =>
    if charsLeadWith sep (c :: rest) then some ([], (c :: rest).drop sep.length)
    else
      match charsSplitOnce sep rest with
      | some (pre, post) => some (c :: pre, post)
      | none => none

/-- Python's `s.split(sep, 1)` when the separator occurs: the parts before
and after its first occurrence. -/
def splitOnce (s sep : String) : Option (String × String) :=
  match charsSplitOnce sep.data s.data with
  | some (pre, post) => some (String.mk pre, String.mk post)
  | none => none

/-- Python's `s.lower()` (ASCII reading). -/
def strLower (s : String) : String := String.mk (s.data.map Char.toLower)

/-- Python's `s.strip()`: whitespace removed from both ends. -/
def strTrim (s : String) : String :=
  String.mk (((s.data.dropWhile Char.isWhitespace).reverse.dropWhile
    Char.isWhitespace).reverse)

/-- Replace every non-overlapping occurrence of the (non-empty) pattern
`p :: ps`, scanning left to right.  The fuel argument only drives the
structural recursion; any fuel at least the input length gives the full
scan, and callers pass exactly that. -/
def charsReplace (p : Char) (ps rep : List Char) : Nat → List Char → List Char
  | _, [] => []
  | 0, s => s
  | fuel + 1, c :: rest =>
    if charsLeadWith (p :: ps) (c :: rest) then
      rep ++ charsReplace p ps rep fuel ((c :: rest).drop (p :: ps).length)
    else c :: charsReplace p ps rep fuel rest

/-- Python's `s.replace(pat, rep)` (the pipeline only uses non-empty
patterns; an empty pattern is returned unchanged here). -/
def strReplace (s pat rep : String) : String :=
  match pat.data with
  | [] => s
  | p :: ps => String.mk (charsReplace p ps rep.data s.data.length s.data)

/-- Split into the (possibly empty) runs between separator characters. -/
def charsSplitPred (f : Char → Bool) : List Char → List Char → List (List Char)
  | [], acc => [acc.reverse]
  | c :: rest, acc =>
    if f c then acc.reverse :: charsSplitPred f rest []
    else charsSplitPred f rest (c :: acc)

/-- Split into the (possibly empty) segments between occurrences of the
non-empty separator `p :: ps`, Python's `s.split(sep)`.  The fuel argument
only drives the structural recursion; callers pass the input length. -/
def charsSplitOnAux (p : Char) (ps : List Char) :
    Nat → List Char → List Char → List (List Char)
  | _, [], acc => [acc.reverse]
  | 0, s, acc => [acc.reverse ++ s]
  | fuel + 1, c :: rest, acc =>
    if charsLeadWith (p :: ps) (c :: rest) then
      acc.reverse :: charsSplitOnAux p ps fuel ((c :: rest).drop (p :: ps).length) []
    else charsSplitOnAux p ps fuel rest (c :: acc)

/-- Python's `s.split(sep)` for a non-empty separator. -/
def strSplitOn (s sep : String) : List String :=
  match sep.data with
  | [] => [s]
  | p :: ps => (charsSplitOnAux p ps s.data.length s.data []).map String.mk

/-- Python's `s.split()` (split on whitespace runs, dropping empties). -/
def wsWords (s : String) : List String :=
  ((charsSplitPred Char.isWhitespace s.data []).map String.mk).filter (fun w => w ≠ "")

/-- A word character in the sense of the regex `\w` (ASCII reading). -/
def isWordChar (c : Char) : Bool := c.isAlphanum || c == '_'

/-- Python's `re.findall(r"\w+", s)`: maximal runs of word characters. -/
def reWords (s : String) : List String :=
  ((charsSplitPred (fun c => !(isWordChar c)) s.data []).map String.mk).filter
    (fun w => w ≠ "")

/-- Python's `" ".join(ws)`. -/
def joinSpace : List String → String
  | [] => ""
  | [w] => w
  | w :: rest => w ++ " " ++ joinSpace rest

/-- Size of the intersection of two word sets, `len(set(a) & set(b))`. -/
def interCount (a b : List String) : Nat :=
  ((a.dedup).filter (fun w => b.contains w)).length

/-- Last component of a path string, Python's `Path(p).name`. -/
def pathName (p : String) : String :=
  (strSplitOn p "/").getLastD p

/-- Python's `Path(p).stem`: the name with its final suffix removed.
`name.rfind('.')` keeps the name unchanged when the only dot is leading or
trailing. -/
def pathStem (p : String) : String :=
  let n := pathName p
  let cs := n.data
  match (List.range cs.length).filter (fun i => cs.getD i ' ' == '.') |>.getLast? with
  | some i => if 0 < i ∧ i < cs.length - 1 then String.mk (cs.take i) else n
  | none => n

/-! ## Data model (`models.py`) -/

/-- Valid task status values (`TaskStatus`). -/
inductive TaskStatus where
  | todo
  | inProgress
  | done
deriving DecidableEq

/-- Serialized form of a status, Python's `TaskStatus.value`. -/
def TaskStatus.value : TaskStatus → String
  | .todo => "to-do"
  | .inProgress => "in-progress"
  | .done => "done"

/-- Python's `TaskStatus(s)` enum lookup, raising ValueError on other strings. -/
def statusFromString (s : String) : Except String TaskStatus :=
  if s = "to-do" then .ok .todo
  else if s = "in-progress" then .ok .inProgress
  else if s = "done" then .ok .done
  else .error ("invalid TaskStatus: " ++ s)

/-- Valid task priority values (`TaskPriority`). -/
inductive TaskPriority where
  | high
  | medium
  | low
deriving DecidableEq

/-- Serialized form of a priority, Python's `TaskPriority.value`. -/
def TaskPriority.value : TaskPriority → String
  | .high => "high"
  | .medium => "medium"
  | .low => "low"

/-- Python's `TaskPriority(s)` enum lookup, raising ValueError otherwise. -/
def priorityFromString (s : String) : Except String TaskPriority :=
  if s = "high" then .ok .high
  else if s = "medium" then .ok .medium
  else if s = "low" then .ok .low
  else .error ("invalid TaskPriority: " ++ s)

/-- A single task (`Task` dataclass). -/
structure Task where
  id : Int
  title : String
  description : String
  priority : TaskPriority
  dependencies : List Int
  status : TaskStatus
deriving DecidableEq

/-- Construction of a Task with the `__post_init__` validation: non-blank
title, non-blank description, positive id, in that order. -/
def mkTask (id : Int) (title description : String) (priority : TaskPriority)
    (dependencies : List Int) (status : TaskStatus) : Except String Task :=
  if strTrim title = "" then .error "Task title cannot be empty"
  else if strTrim description = "" then .error "Task description cannot be empty"
  else if id ≤ 0 then .error "Task ID must be positive"
  else .ok { id := id, title := title, description := description,
             priority := priority, dependencies := dependencies, status := status }

/-- Python's `Task.add_dependency`: append the id unless already present. -/
def Task.addDep (t : Task) (depId : Int) : Task :=
  if t.dependencies.contains depId then t
  else { t with dependencies := t.dependencies ++ [depId] }

/-- Python's `Task.is_blocked_by`: some dependency is not completed. -/
def Task.blockedBy (t : Task) (completedIds : List Int) : Bool :=
  !(t.dependencies.all (fun d => completedIds.contains d))

/-- Parsed content of one brief file (`BriefContent`). The `metadata`
dict is carried but never read by the embedded pipeline. -/
structure BriefContent where
  filePath : String
  briefType : String
  title : String
  description : String
  tasks : List String
  metadata : List (String × String)
deriving DecidableEq

/-- Project-level metadata (`ProjectMetadata`); `created`/`updated` hold the
ISO strings the datetimes serialize to. -/
structure ProjectMetadata where
  name : String
  description : String
  created : String
  updated : String
  totalTasks : Nat
  completedTasks : Nat
deriving DecidableEq

/-! ## Serialized tasks.json document -/

/-- One entry of the `"tasks"` array, as written by `Task.to_dict`. -/
structure TaskDict where
  id : Int
  title : String
  description : String
  priority : String
  dependencies : List Int
  status : String
deriving DecidableEq

/-- The `"metadata"` object, as written by `ProjectMetadata.to_dict`. -/
structure MetaDict where
  created : String
  updated : String
  description : String
deriving DecidableEq

/-- The whole tasks.json document (the content under `"master"`). -/
structure TasksDocument where
  tasks : List TaskDict
  metadata : MetaDict
deriving DecidableEq

/-- Python's `Task.to_dict`. -/
def Task.toDict (t : Task) : TaskDict :=
  { id := t.id, title := t.title, description := t.description,
    priority := t.priority.value, dependencies := t.dependencies,
    status := t.status.value }

/-- Python's `Task.from_dict`: rebuild a Task, re-running the constructor
validation and the enum conversions. -/
def taskFromDict (d : TaskDict) : Except String Task := do
  let p ← priorityFromString d.priority
  let s ← statusFromString d.status
  mkTask d.id d.title d.description p d.dependencies s

/-- Python's `ProjectMetadata.to_dict` (only created/updated/description). -/
def ProjectMetadata.toDict (m : ProjectMetadata) : MetaDict :=
  { created := m.created, updated := m.updated, description := m.description }

/-- Python's `ProjectMetadata.from_dict` with the default name. -/
def metaFromDict (d : MetaDict) : ProjectMetadata :=
  { name := "Generated Project", description := d.description,
    created := d.created, updated := d.updated,
    totalTasks := 0, completedTasks := 0 }

/-! ## TaskCollection -/

/-- The task aggregate (`TaskCollection`): the `_tasks` dict is an ordered
id-keyed map, modelled as the list of its values in insertion order. -/
structure TaskCollection where
  tasks : List Task
  nextId : Int
deriving DecidableEq

/-- A fresh empty collection (`TaskCollection.__init__`). -/
def TaskCollection.empty : TaskCollection := { tasks := [], nextId := 1 }

/-- Python's `task_id in self._tasks` key test. -/
def containsTask (c : TaskCollection) (i : Int) : Bool :=
  c.tasks.any (fun t => t.id == i)

/-- Python's `TaskCollection.get_task`. -/
def getTask (c : TaskCollection) (i : Int) : Option Task :=
  c.tasks.find? (fun t => t.id == i)

/-- Python's dict write `self._tasks[task.id] = task`: overwrite in place
when the key exists, otherwise append. -/
def putTask : List Task → Task → List Task
  | [], t => [t]
  | t' :: rest, t => if t'.id == t.id then t :: rest else t' :: putTask rest t

/-- Python's `TaskCollection.add_task`: reject duplicate ids, then reject
the first dependency that is not yet in the collection, then insert and
bump `_next_id`. -/
def addTask (c : TaskCollection) (t : Task) : Except String TaskCollection :=
  if containsTask c t.id then
    .error ("Task with ID " ++ toString t.id ++ " already exists")
  else
    match t.dependencies.find? (fun d => !(containsTask c d)) with
    | some d =>
      .error ("Dependency " ++ toString d ++ " does not exist for task " ++ toString t.id)
    | none => .ok { tasks := c.tasks ++ [t], nextId := max c.nextId (t.id + 1) }

/-- Python's `TaskCollection.create_task`: build a task carrying `_next_id`
(status TODO) and add it. -/
def createTask (c : TaskCollection) (title description : String)
    (priority : TaskPriority) (dependencies : List Int) :
    Except String (TaskCollection × Task) := do
  let t ← mkTask c.nextId title description priority dependencies .todo
  let c' ← addTask c t
  .ok (c', t)

/-- Python's `TaskCollection.get_all_tasks`: values sorted by id.  Python's
sort is stable, and so is insertion sort for a total key order. -/
def getAllTasks (c : TaskCollection) : List Task :=
  List.insertionSort (fun a b => a.id ≤ b.id) c.tasks

/-- Python's `TaskCollection.get_completed_task_ids` (membership view of the
set it builds). -/
def completedTaskIds (c : TaskCollection) : List Int :=
  (c.tasks.filter (fun t => t.status == .done)).map (fun t => t.id)

/-- Python's `TaskCollection.get_unlocked_tasks`. -/
def getUnlockedTasks (c : TaskCollection) : List Task :=
  let completed := completedTaskIds c
  c.tasks.filter (fun t => t.status == .todo && !(t.blockedBy completed))

/-! ## Depth-first cycle detection with a recursion stack

Both `TaskCollection._has_circular_dependencies` and
`DependencyMapper._detect_circular_dependencies` run the same inner `has_cycle`
recursion over a shared `visited` set and a recursion stack.  The recursion is
embedded with a fuel parameter; any fuel exceeding the number of distinct
reachable nodes gives the Python behaviour (proved below), and the callers pass
such a fuel.  The Python `for dep in deps: if has_cycle(dep): return True` loop
is a fold that freezes once the flag is true, exactly as the early return does. -/

/-- One `has_cycle(v)` call: `stack` is the recursion stack (head = most
recent), `visited` the shared visited set; returns the flag and the grown
visited set.  Popping `v` off the stack on return is implicit because each
call passes its own extended stack down. -/
def dfsVisit (adj : Int → List Int) : Nat → List Int → List Int → Int → Bool × List Int
  | 0, _, visited, _ => (true, visited)
  | fuel + 1, stack, visited, v =>
    if v ∈ stack then (true, visited)
    else if v ∈ visited then (false, visited)
    else
      (adj v).foldl
        (fun acc u => if acc.1 then acc else dfsVisit adj fuel (v :: stack) acc.2 u)
        (false, v :: visited)

/-- The `for node in ...: if node not in visited: if has_cycle(node): return True`
driver loop of `_has_circular_dependencies`. -/
def anyCycleRoots (adj : Int → List Int) (fuel : Nat) : List Int → List Int → Bool
  | _, [] => false
  | visited, r :: rs =>
    if r ∈ visited then anyCycleRoots adj fuel visited rs
    else
      if (dfsVisit adj fuel [] visited r).1 then true
      else anyCycleRoots adj fuel (dfsVisit adj fuel [] visited r).2 rs

/-- The mapper's driver loop, which keeps going and records every root whose
DFS reported a cycle. -/
def collectCycleRoots (adj : Int → List Int) (fuel : Nat) : List Int → List Int → List Int
  | _, [] => []
  | visited, r :: rs =>
    if r ∈ visited then collectCycleRoots adj fuel visited rs
    else
      if (dfsVisit adj fuel [] visited r).1 then
        r :: collectCycleRoots adj fuel (dfsVisit adj fuel [] visited r).2 rs
      else collectCycleRoots adj fuel (dfsVisit adj fuel [] visited r).2 rs

/-- Neighbour function of a collection's dependency graph: the dependency
list of the task with this id (`self._tasks.get(task_id)`), empty when the
id is absent. -/
def depAdj (c : TaskCollection) : Int → List Int := fun i =>
  match getTask c i with
  | some t => t.dependencies
  | none => []

/-- Ids of the collection's tasks in dict iteration (= insertion) order. -/
def collectionIds (c : TaskCollection) : List Int :=
  c.tasks.map (fun t => t.id)

/-- Fuel that strictly exceeds the number of nodes the DFS can ever visit. -/
def collectionFuel (c : TaskCollection) : Nat :=
  (collectionIds c ++ c.tasks.flatMap (fun t => t.dependencies)).length + 1

/-- Python's `TaskCollection._has_circular_dependencies`. -/
def hasCircularDeps (c : TaskCollection) : Bool :=
  anyCycleRoots (depAdj c) (collectionFuel c) [] (collectionIds c)

/-- Error string for a self-dependent task. -/
def selfDepMsg (i : Int) : String :=
  "Task " ++ toString i ++ " depends on itself"

/-- Error string for a dependency on a missing task. -/
def missingDepMsg (i d : Int) : String :=
  "Task " ++ toString i ++ " depends on non-existent task " ++ toString d

/-- The single circular-dependency warning of `validate_dependencies`. -/
def circularMsg : String := "Circular dependencies detected in task graph"

/-- Python's `TaskCollection.validate_dependencies`: per task (in insertion
order) a self-dependency error then one error per missing dependency, and
finally the circular warning when the DFS finds a cycle. -/
def validateDependencies (c : TaskCollection) : List String :=
  (c.tasks.flatMap fun t =>
    (if t.id ∈ t.dependencies then [selfDepMsg t.id] else [])
      ++ (t.dependencies.filter (fun d => !(containsTask c d))).map
          (fun d => missingDepMsg t.id d))
    ++ (if hasCircularDeps c then [circularMsg] else [])

/-! ## Serialization (`to_tasks_json` / `from_tasks_json`) -/

/-- Python's `TaskCollection.to_tasks_json`. -/
def toTasksJson (c : TaskCollection) (m : ProjectMetadata) : TasksDocument :=
  { tasks := (getAllTasks c).map Task.toDict, metadata := m.toDict }

/-- One iteration of the `from_tasks_json` loop: parse the dict and write
the task into the `_tasks` dict, bumping `_next_id`. -/
def loadTaskStep (c : TaskCollection) (td : TaskDict) : Except String TaskCollection := do
  let t ← taskFromDict td
  .ok { tasks := putTask c.tasks t, nextId := max c.nextId (t.id + 1) }

/-- Python's `TaskCollection.from_tasks_json`: rebuild the metadata, then
write each parsed task straight into the `_tasks` dict (no `add_task`
validation) while bumping `_next_id`. -/
def fromTasksJson (d : TasksDocument) : Except String (TaskCollection × ProjectMetadata) := do
  let metadata := metaFromDict d.metadata
  let collection ← d.tasks.foldlM loadTaskStep TaskCollection.empty
  .ok (collection, metadata)

/-! ## TaskIDManager (`id_manager.py`)

The constructor's file read is the external boundary: `loadExisting` takes
the parsed tasks.json document. -/

/-- Manager state after `__init__`. -/
structure TaskIDManager where
  existingCollection : Option TaskCollection
  existingMetadata : Option ProjectMetadata
  nextAvailableId : Int
  reservedIds : List Int
deriving DecidableEq

/-- A manager with no existing tasks file. -/
def freshManager : TaskIDManager :=
  { existingCollection := none, existingMetadata := none,
    nextAvailableId := 1, reservedIds := [] }

/-- Python's `_load_existing_tasks` on a successfully read document:
reconstruct collection and metadata, then derive `next_available_id` and the
reserved-id set from the highest existing id.  Errors raised while
reconstructing tasks propagate (only file-I/O errors fall back to a fresh
start, and those happen before this point). -/
def loadExisting (d : TasksDocument) : Except String TaskIDManager := do
  let (collection, metadata) ← fromTasksJson d
  let existingTasks := getAllTasks collection
  if existingTasks.isEmpty then
    .ok { existingCollection := some collection, existingMetadata := some metadata,
          nextAvailableId := 1, reservedIds := [] }
  else
    let maxId := (existingTasks.map (fun t => t.id)).foldl max 0
    .ok { existingCollection := some collection, existingMetadata := some metadata,
          nextAvailableId := maxId + 1,
          reservedIds := existingTasks.map (fun t => t.id) }

/-- Python's `TaskIDManager.__init__` over an optional document. -/
def mkManager : Option TasksDocument → Except String TaskIDManager
  | none => .ok freshManager
  | some d => loadExisting d

/-- Type rank used by `_order_briefs`: setup 0, feature 1, deployment 2,
anything else 1. -/
def briefTypeOrder (bt : String) : Nat :=
  if bt = "setup" then 0 else if bt = "feature" then 1
  else if bt = "deployment" then 2 else 1

/-- Lexicographic comparison of character lists (Python string order). -/
def charsLE : List Char → List Char → Bool
  | [], _ => true
  | _ :: _, [] => false
  | a :: as, b :: bs => if a = b then charsLE as bs else decide (a < b)

/-- Python's `s <= t` on strings (code-point lexicographic). -/
def strLE (s t : String) : Bool := charsLE s.data t.data

/-- Python's `sorted(briefs, key=lambda b: (order, b.file_path.name))`. -/
def orderBriefs (briefs : List BriefContent) : List BriefContent :=
  List.insertionSort (fun a b =>
    briefTypeOrder a.briefType < briefTypeOrder b.briefType
      ∨ (briefTypeOrder a.briefType = briefTypeOrder b.briefType
          ∧ strLE (pathName a.filePath) (pathName b.filePath) = true)) briefs

/-- Ordered string-keyed dict helpers mirroring Python dict semantics. -/
def dictHasKey (d : List (String × List String)) (k : String) : Bool :=
  d.any (fun kv => kv.1 == k)

/-- Write a key (overwrite keeps the key's position, new keys append). -/
def dictPutKV : List (String × List String) → String → List String →
    List (String × List String)
  | [], k, v => [(k, v)]
  | kv :: rest, k, v =>
    if kv.1 == k then (k, v) :: rest else kv :: dictPutKV rest k v

/-- In-place mutation of the list stored under a key (no-op when absent). -/
def dictModify (d : List (String × List String)) (k : String)
    (f : List String → List String) : List (String × List String) :=
  d.map (fun kv => if kv.1 == k then (kv.1, f kv.2) else kv)

/-- Read with default, Python's `d.get(k, [])`. -/
def dictGetD (d : List (String × List String)) (k : String) : List String :=
  ((d.find? (fun kv => kv.1 == k)).map (fun kv => kv.2)).getD []

/-- Python's `_analyze_brief_dependencies`: fixed type-level rules, then a
content scan that only ever `setdefault`s an empty entry. -/
def analyzeBriefDeps (briefs : List BriefContent) : List (String × List String) :=
  let briefTypes := briefs.map (fun b => b.briefType)
  let d0 : List (String × List String) := []
  let d1 :=
    if briefTypes.contains "setup" then
      dictPutKV (dictPutKV d0 "feature" ["setup"]) "deployment" ["setup"]
    else d0
  let d2 :=
    if briefTypes.contains "feature" && briefTypes.contains "deployment" then
      let d' := if !(dictHasKey d1 "deployment") then dictPutKV d1 "deployment" [] else d1
      dictModify d' "deployment" (fun v => v ++ ["feature"])
    else d1
  briefs.foldl
    (fun d b =>
      let contentLower := strLower b.description ++ strLower (joinSpace b.tasks)
      if strHas contentLower "depends on" || strHas contentLower "requires" then
        if dictHasKey d b.briefType then d else dictPutKV d b.briefType []
      else d)
    d2

/-- Python's `_get_priority_for_brief_type` (both copies in the code agree). -/
def priorityForBriefType (bt : String) : TaskPriority :=
  if bt = "setup" then .high else if bt = "feature" then .high
  else if bt = "deployment" then .medium else .medium

/-- Python's `_parse_task_description`: split at the first `": "` (cleaning
bold markers from the title part), otherwise truncate to six words. -/
def parseTaskDescription (raw : String) : String × String :=
  let s := strTrim raw
  match splitOnce s ": " with
  | some (pre, post) =>
    let title := strTrim (strReplace (strReplace (strTrim pre) "**" "") "*" "")
    (title, strTrim post)
  | none =>
    let ws := wsWords s
    if ws.length > 6 then (joinSpace (ws.take 6) ++ "...", s) else (s, s)

/-- High-priority keyword list of `_determine_task_priority`. -/
def highPriorityKeywords : List String :=
  ["critical", "essential", "foundation", "core", "must-have", "required",
   "setup", "infrastructure", "framework", "basic", "fundamental"]

/-- Low-priority keyword list of `_determine_task_priority`. -/
def lowPriorityKeywords : List String :=
  ["optional", "nice-to-have", "enhancement", "improvement", "optimization",
   "polish", "extra", "bonus", "future"]

/-- Python's `_determine_task_priority`. -/
def determineTaskPriority (title description : String) (base : TaskPriority) :
    TaskPriority :=
  let combined := strLower title ++ " " ++ strLower description
  if highPriorityKeywords.any (fun k => strHas combined k) then .high
  else if lowPriorityKeywords.any (fun k => strHas combined k) then .low
  else base

/-- Keyword sets of `_task_likely_from_brief_type`. -/
def typeKeywords (bt : String) : List String :=
  if bt = "setup" then
    ["setup", "structure", "cli", "directory", "framework", "foundation",
     "install", "configure"]
  else if bt = "feature" then
    ["implement", "create", "build", "feature", "functionality", "interface",
     "component"]
  else if bt = "deployment" then
    ["test", "documentation", "deploy", "release", "quality", "error handling",
     "performance"]
  else []

/-- Python's `_task_likely_from_brief_type`. -/
def taskLikelyFromBriefType (t : Task) (bt : String) : Bool :=
  let combined := strLower t.title ++ " " ++ strLower t.description
  (typeKeywords bt).any (fun k => strHas combined k)

/-- Python's `max(tasks, key=lambda t: t.id)`: first task attaining the
maximal id. -/
def maxByIdFirst : List Task → Option Task
  | [] => none
  | t :: rest => some (rest.foldl (fun best x => if x.id > best.id then x else best) t)

/-- Python's `min(tasks, key=lambda t: t.id)`: first task attaining the
minimal id. -/
def minByIdFirst : List Task → Option Task
  | [] => none
  | t :: rest => some (rest.foldl (fun best x => if x.id < best.id then x else best) t)

/-- Python's `_resolve_brief_dependencies`: for each prerequisite brief type,
the id of the highest-id task that heuristically matches that type. -/
def resolveBriefDeps (b : BriefContent) (briefDeps : List (String × List String))
    (c : TaskCollection) : List Int :=
  let deps := dictGetD briefDeps b.briefType
  let allTasks := getAllTasks c
  deps.foldl
    (fun acc depBriefType =>
      let depTasks := allTasks.filter (fun t => taskLikelyFromBriefType t depBriefType)
      match maxByIdFirst depTasks with
      | some t => acc ++ [t.id]
      | none => acc)
    []

/-- Python's `_determine_task_dependencies` for the task at position `idx`
of the brief's raw list (blanks included in the numbering): brief-level
anchors for the first entry, otherwise the previously created task. -/
def determineTaskDeps (idx : Nat) (prevTaskIds : List Int)
    (briefDeps : List Int) : List Int :=
  (if idx == 0 && !briefDeps.isEmpty then briefDeps else [])
    ++ (if !prevTaskIds.isEmpty && idx > 0 then [prevTaskIds.getLastD 0] else [])

/-- The `for i, task_desc in enumerate(brief.tasks)` loop of
`_generate_tasks_for_brief`, threading the collection and the ids created so
far for this brief. -/
def genLoop (basePriority : TaskPriority) (briefDeps : List Int) :
    List String → Nat → TaskCollection → List Int →
    Except String (TaskCollection × List Int)
  | [], _, c, gen => .ok (c, gen)
  | raw :: rest, idx, c, gen =>
    if strTrim raw = "" then genLoop basePriority briefDeps rest (idx + 1) c gen
    else do
      let (title, description) := parseTaskDescription raw
      let priority := determineTaskPriority title description basePriority
      let deps := determineTaskDeps idx gen briefDeps
      let (c', t) ← createTask c title description priority deps
      genLoop basePriority briefDeps rest (idx + 1) c' (gen ++ [t.id])

/-- Python's `_generate_tasks_for_brief`. -/
def genTasksForBrief (b : BriefContent) (c : TaskCollection)
    (briefDeps : List (String × List String)) :
    Except String (TaskCollection × List Int) :=
  let basePriority := priorityForBriefType b.briefType
  let depIds := resolveBriefDeps b briefDeps c
  genLoop basePriority depIds b.tasks 0 c []

/-- Python's `TaskIDManager.assign_task_ids`: start from the loaded
collection (or a fresh one at `next_available_id`), order the briefs, derive
type-level dependencies, and generate tasks brief by brief. -/
def assignTaskIds (m : TaskIDManager) (briefs : List BriefContent) :
    Except String TaskCollection :=
  let collection :=
    match m.existingCollection with
    | some c => c
    | none => { tasks := [], nextId := m.nextAvailableId }
  let ordered := orderBriefs briefs
  let briefDeps := analyzeBriefDeps ordered
  ordered.foldlM
    (fun c b => do
      let (c', _briefTaskIds) ← genTasksForBrief b c briefDeps
      .ok c')
    collection

/-! ## DependencyMapper (`dependency_mapper.py`)

Confidence scores are Python floats used only for comparison, bucketing and
averaging; they are modelled as rationals. -/

/-- A suggested dependency edge (`DependencyRelationship`). -/
structure DependencyRelationship where
  fromTaskId : Int
  toTaskId : Int
  relationshipType : String
  confidence : Rat
  reason : String
deriving DecidableEq

/-- Statistics dict of `_generate_dependency_statistics` with typed fields. -/
structure DependencyStatistics where
  totalSuggested : Nat
  typeCounts : List (String × Nat)
  highConfidence : Nat
  mediumConfidence : Nat
  lowConfidence : Nat
  tasksWithDependencies : Nat
  dependencyDensity : Rat
  averageConfidence : Rat
deriving DecidableEq

/-- Result bundle of `analyze_dependencies` (`DependencyAnalysis`). -/
structure DependencyAnalysis where
  suggestedDependencies : List DependencyRelationship
  warnings : List String
  statistics : DependencyStatistics
deriving DecidableEq

/-- The `dependency_keywords` table, in dict order. -/
def dependencyKeywords : List (String × List String) :=
  [("prerequisite", ["requires", "needs", "depends on", "after", "once", "following"]),
   ("blocking", ["before", "prior to", "must precede", "prerequisite for"]),
   ("sequential", ["then", "next", "subsequently", "continue", "build on"]),
   ("optional", ["optionally", "if needed", "consider", "may want to"])]

/-- The `implementation_patterns` table, in dict order. -/
def implementationPatterns : List (String × List String) :=
  [("foundation", ["setup", "initialize", "create structure", "establish", "configure"]),
   ("implementation", ["implement", "build", "create", "develop", "code"]),
   ("integration", ["integrate", "connect", "combine", "merge", "link"]),
   ("testing", ["test", "validate", "verify", "check", "ensure"]),
   ("documentation", ["document", "write docs", "create guide", "explain"]),
   ("deployment", ["deploy", "release", "publish", "distribute", "launch"])]

/-- `implementation_patterns.get(bt, [])`. -/
def implPatternsFor (bt : String) : List String :=
  ((implementationPatterns.find? (fun kv => kv.1 == bt)).map (fun kv => kv.2)).getD []

/-- `brief_type_rules[bt]['priority']` with default 999. -/
def briefRulePriority (bt : String) : Nat :=
  if bt = "setup" then 1 else if bt = "feature" then 2
  else if bt = "deployment" then 3 else 999

/-- `brief_type_rules[bt].get('depends_on', [])`. -/
def briefRuleDependsOn (bt : String) : List String :=
  if bt = "feature" then ["setup"]
  else if bt = "deployment" then ["setup", "feature"]
  else []

/-- `brief_type_rules.get(bt, {}).get('internal_sequential', True)`: setup
and deployment are sequential, feature is not, unknown types default True. -/
def briefRuleSequential (bt : String) : Bool :=
  if bt = "feature" then false else true

/-- Group key `f"{brief.brief_type}_{brief.file_path.stem}"`. -/
def briefKey (b : BriefContent) : String :=
  b.briefType ++ "_" ++ pathStem b.filePath

/-- Python's `_task_belongs_to_brief` association score and threshold. -/
def taskBelongsToBrief (t : Task) (b : BriefContent) : Bool :=
  let taskText := strLower (t.title ++ " " ++ t.description)
  let briefTitleWords := (reWords (strLower b.title)).dedup
  let taskWords := (reWords taskText).dedup
  let briefContent := strLower (b.description ++ " " ++ joinSpace b.tasks)
  let briefWords := (reWords briefContent).dedup
  let titleOverlap : Rat :=
    mkRat (interCount briefTitleWords taskWords) (max briefTitleWords.length 1)
  let contentOverlap : Rat :=
    mkRat (interCount briefWords taskWords) (max briefWords.length 1)
  let typeMatches : Nat :=
    ((implPatternsFor b.briefType).filter (fun p => strHas taskText p)).length
  let score := titleOverlap * mkRat 4 10 + contentOverlap * mkRat 4 10
    + (typeMatches : Rat) * mkRat 2 10
  decide (score > mkRat 3 10)

/-- Task-group dict helpers (string keys, Task-list values). -/
def groupPut : List (String × List Task) → String → List Task →
    List (String × List Task)
  | [], k, v => [(k, v)]
  | kv :: rest, k, v =>
    if kv.1 == k then (k, v) :: rest else kv :: groupPut rest k v

/-- `task_groups.get(k, [])`. -/
def groupGetD (g : List (String × List Task)) (k : String) : List Task :=
  ((g.find? (fun kv => kv.1 == k)).map (fun kv => kv.2)).getD []

/-- Python's `_group_tasks_by_brief`: one bucket per brief (in brief order)
holding the tasks whose association score passes, plus an `_unassigned`
bucket when some task matches no brief. -/
def groupTasksByBrief (briefs : List BriefContent) (c : TaskCollection) :
    List (String × List Task) :=
  let allTasks := getAllTasks c
  let groups := briefs.foldl
    (fun g b => groupPut g (briefKey b) (allTasks.filter (fun t => taskBelongsToBrief t b)))
    []
  let assignedIds := (groups.flatMap (fun kv => kv.2)).map (fun t => t.id)
  let unassigned := allTasks.filter (fun t => !(assignedIds.contains t.id))
  if unassigned.isEmpty then groups else groups ++ [("_unassigned", unassigned)]

/-- `prerequisite_map.get(target, [])` of `_is_prerequisite_pattern`. -/
def prerequisitePatterns (target : String) : List String :=
  if target = "implementation" then ["foundation", "setup"]
  else if target = "integration" then ["implementation", "foundation"]
  else if target = "testing" then ["implementation", "integration"]
  else if target = "documentation" then ["implementation", "testing"]
  else if target = "deployment" then ["testing", "documentation"]
  else []

/-- Python's `_is_prerequisite_pattern`. -/
def isPrereqPattern (content target : String) : Bool :=
  (prerequisitePatterns target).any (fun p => strHas content p)

/-- Python's `_analyze_task_content_dependencies` (the non-sequential,
pattern-based branch for feature-style groups). -/
def analyzeTaskContentDeps (tasks : List Task) : List DependencyRelationship :=
  tasks.flatMap (fun t =>
    let content := strLower (t.title ++ " " ++ t.description)
    implementationPatterns.flatMap (fun kv =>
      if kv.2.any (fun p => strHas content p) then
        tasks.flatMap (fun other =>
          if other.id == t.id then []
          else
            let otherContent := strLower (other.title ++ " " ++ other.description)
            if isPrereqPattern otherContent kv.1 then
              [{ fromTaskId := t.id, toTaskId := other.id,
                 relationshipType := "prerequisite", confidence := mkRat 7 10,
                 reason := kv.1 ++ " requires foundation from other task" }]
            else [])
      else []))

/-- Python's `_analyze_within_brief_dependencies`. -/
def analyzeWithinBriefDeps (groups : List (String × List Task)) :
    List DependencyRelationship :=
  groups.flatMap (fun kv =>
    if kv.2.length ≤ 1 then []
    else
      let sortedTasks := List.insertionSort (fun a b => a.id ≤ b.id) kv.2
      let briefType :=
        if strHas kv.1 "_" then ((strSplitOn kv.1 "_").headD "") else "unknown"
      if briefRuleSequential briefType then
        (sortedTasks.zip sortedTasks.tail).map (fun pq =>
          { fromTaskId := pq.2.id, toTaskId := pq.1.id,
            relationshipType := "sequential", confidence := mkRat 8 10,
            reason := "Sequential dependency within " ++ briefType ++ " brief" })
      else analyzeTaskContentDeps sortedTasks)

/-- Python's `_should_create_cross_brief_dependency`. -/
def shouldCreateCrossBriefDep (current prev : BriefContent) : Bool :=
  if (briefRuleDependsOn current.briefType).contains prev.briefType then true
  else
    let currentContent := strLower (current.description ++ " " ++ joinSpace current.tasks)
    ((reWords (strLower prev.title)).dedup).any (fun k => strHas currentContent k)

/-- Python's `_analyze_cross_brief_dependencies`. -/
def analyzeCrossBriefDeps (briefs : List BriefContent)
    (groups : List (String × List Task)) : List DependencyRelationship :=
  let sortedBriefs := List.insertionSort
    (fun a b => briefRulePriority a.briefType ≤ briefRulePriority b.briefType) briefs
  (List.range sortedBriefs.length).flatMap (fun i =>
    match sortedBriefs.get? i with
    | none => []
    | some current =>
      let currentTasks := groupGetD groups (briefKey current)
      if currentTasks.isEmpty then []
      else
        (List.range i).flatMap (fun j =>
          match sortedBriefs.get? j with
          | none => []
          | some prev =>
            let prevTasks := groupGetD groups (briefKey prev)
            if prevTasks.isEmpty then []
            else
              match minByIdFirst currentTasks, maxByIdFirst prevTasks with
              | some firstCurrent, some lastPrev =>
                if shouldCreateCrossBriefDep current prev then
                  [{ fromTaskId := firstCurrent.id, toTaskId := lastPrev.id,
                     relationshipType := "prerequisite", confidence := mkRat 9 10,
                     reason := current.briefType ++ " depends on " ++ prev.briefType
                       ++ " completion" }]
                else []
              | _, _ => []))

/-- Python's `_extract_keyword_context` with the default 10-word window
(`''` when the keyword is not a whitespace-token of the content). -/
def extractKeywordContext (content keyword : String) : String :=
  let ws := wsWords content
  match ws.findIdx? (fun w => w == keyword) with
  | some i => joinSpace ((ws.drop (i - 10)).take (min ws.length (i + 11) - (i - 10)))
  | none => ""

/-- Python's `_find_referenced_tasks`: tasks whose word set overlaps the
keyword context by at least two words, with confidence
`min(0.9, overlap / len(task_words))`. -/
def findReferencedTasks (current : Task) (allTasks : List Task) (keyword : String) :
    List (Task × Rat) :=
  let currentContent := strLower (current.title ++ " " ++ current.description)
  let context := extractKeywordContext currentContent keyword
  let contextWords := (reWords context).dedup
  allTasks.flatMap (fun t =>
    if t.id == current.id then []
    else
      let taskWords := (reWords (strLower (t.title ++ " " ++ t.description))).dedup
      let overlap := interCount taskWords contextWords
      if overlap ≥ 2 then
        [(t, min (mkRat 9 10) (mkRat overlap taskWords.length))]
      else [])

/-- Python's `_analyze_content_dependencies`. -/
def analyzeContentDeps (c : TaskCollection) : List DependencyRelationship :=
  let allTasks := getAllTasks c
  allTasks.flatMap (fun t =>
    let content := strLower (t.title ++ " " ++ t.description)
    dependencyKeywords.flatMap (fun kv =>
      kv.2.flatMap (fun keyword =>
        if strHas content keyword then
          (findReferencedTasks t allTasks keyword).map (fun tc =>
            { fromTaskId := t.id, toTaskId := tc.1.id,
              relationshipType := kv.1, confidence := tc.2,
              reason := "Content mentions \x27" ++ keyword ++ "\x27" })
        else [])))

/-- Graph building of `_detect_circular_dependencies`: `setdefault`-append
under the edge's source id, keys in first-occurrence order. -/
def graphAppendEdge : List (Int × List Int) → Int → Int → List (Int × List Int)
  | [], a, b => [(a, [b])]
  | kv :: rest, a, b =>
    if kv.1 == a then (kv.1, kv.2 ++ [b]) :: rest else kv :: graphAppendEdge rest a b

/-- The adjacency list of the suggested-edge graph. -/
def buildGraph (deps : List DependencyRelationship) : List (Int × List Int) :=
  deps.foldl (fun g d => graphAppendEdge g d.fromTaskId d.toTaskId) []

/-- `graph.get(node, [])`. -/
def graphAdj (g : List (Int × List Int)) : Int → List Int := fun i =>
  ((g.find? (fun kv => kv.1 == i)).map (fun kv => kv.2)).getD []

/-- Fuel strictly exceeding the number of nodes of the suggestion graph. -/
def graphFuel (g : List (Int × List Int)) : Nat :=
  (g.map (fun kv => kv.1) ++ g.flatMap (fun kv => kv.2)).length + 1

/-- Warning string of the mapper's cycle detection. -/
def circularRootMsg (node : Int) : String :=
  "Circular dependency detected involving task " ++ toString node

/-- Python's `_detect_circular_dependencies`: DFS from every graph key in
order, one warning per key whose DFS reports a cycle. -/
def detectCircularDependencies (deps : List DependencyRelationship) : List String :=
  let g := buildGraph deps
  (collectCycleRoots (graphAdj g) (graphFuel g) [] (g.map (fun kv => kv.1))).map
    circularRootMsg

/-- Bump a relationship-type counter, keys in first-occurrence order. -/
def bumpCount : List (String × Nat) → String → List (String × Nat)
  | [], k => [(k, 1)]
  | kv :: rest, k =>
    if kv.1 == k then (kv.1, kv.2 + 1) :: rest else kv :: bumpCount rest k

/-- Python's `_generate_dependency_statistics`. -/
def generateDependencyStatistics (deps : List DependencyRelationship)
    (c : TaskCollection) : DependencyStatistics :=
  let totalTasks := (getAllTasks c).length
  { totalSuggested := deps.length
    typeCounts := deps.foldl (fun acc d => bumpCount acc d.relationshipType) []
    highConfidence := (deps.filter (fun d => decide (d.confidence ≥ mkRat 8 10))).length
    mediumConfidence :=
      (deps.filter (fun d => decide (¬(d.confidence ≥ mkRat 8 10) ∧ d.confidence ≥ mkRat 5 10))).length
    lowConfidence :=
      (deps.filter (fun d => decide (¬(d.confidence ≥ mkRat 8 10) ∧ ¬(d.confidence ≥ mkRat 5 10)))).length
    tasksWithDependencies := ((deps.map (fun d => d.fromTaskId)).dedup).length
    dependencyDensity := mkRat deps.length (max totalTasks 1)
    averageConfidence := Rat.div ((deps.map (fun d => d.confidence)).sum) (mkRat (max deps.length 1) 1) }

/-- Python's `DependencyMapper.analyze_dependencies`: concatenate the
within-brief, cross-brief and content passes, detect cycles, and compute
statistics. -/
def analyzeDependencies (briefs : List BriefContent) (c : TaskCollection) :
    DependencyAnalysis :=
  let groups := groupTasksByBrief briefs c
  let withinDeps := analyzeWithinBriefDeps groups
  let crossDeps := analyzeCrossBriefDeps briefs groups
  let contentDeps := analyzeContentDeps c
  let suggested := withinDeps ++ crossDeps ++ contentDeps
  let warnings := detectCircularDependencies suggested
  { suggestedDependencies := suggested
    warnings := warnings
    statistics := generateDependencyStatistics suggested c }

/-- Apply one task's in-place `add_dependency` through the collection. -/
def addDepInCollection (c : TaskCollection) (taskId depId : Int) : TaskCollection :=
  { c with tasks := c.tasks.map (fun t => if t.id == taskId then t.addDep depId else t) }

/-- One iteration of the `for dep in dependencies` loop of
`apply_dependencies`: skip low-confidence suggestions, missing source tasks,
already-present edges and self-edges; otherwise add the edge and count it. -/
def applyStep (threshold : Rat) (acc : TaskCollection × Nat)
    (dep : DependencyRelationship) : TaskCollection × Nat :=
  if dep.confidence < threshold then acc
  else
    match getTask acc.1 dep.fromTaskId with
    | none => acc
    | some t =>
      if !(t.dependencies.contains dep.toTaskId) && dep.fromTaskId != dep.toTaskId then
        (addDepInCollection acc.1 dep.fromTaskId dep.toTaskId, acc.2 + 1)
      else acc

/-- Python's `DependencyMapper.apply_dependencies`: fold the loop body over
the suggestions, mutating the collection in place and counting the edges
actually added. -/
def applyDependencies (c : TaskCollection) (deps : List DependencyRelationship)
    (threshold : Rat) : TaskCollection × Nat :=
  deps.foldl (applyStep threshold) (c, 0)

/-! ## EnhancedTaskGenerator (`enhanced_generator.py`)

`parse_brief_file` reads the file system, so the orchestrator is embedded
over a parse oracle `parse : path → Except error BriefContent` describing the
file system's parse results; everything downstream is the Python code. -/

/-- Python's `EnhancedTaskGenerator.process_brief_files`: parse every brief
in order re-raising the first failure, assign ids, analyze dependencies,
apply suggestions at threshold 0.7, and compute (but only log) the
validation errors. -/
def processBriefFiles (parse : String → Except String BriefContent)
    (m : TaskIDManager) (briefFiles : List String) : Except String TaskCollection := do
  let processedBriefs ← briefFiles.mapM parse
  let generatedCollection ← assignTaskIds m processedBriefs
  let analysis := analyzeDependencies processedBriefs generatedCollection
  let applied := applyDependencies generatedCollection analysis.suggestedDependencies (mkRat 7 10)
  let _validationWarnings := validateDependencies applied.1
  .ok applied.1

/-! ## BriefParser type detection (`parser.p.py`) -/

/-- Content indicators for setup briefs (`setup_indicators`). -/
def setupIndicators : List String :=
  ["project setup", "infrastructure", "cli structure",
   "technical requirements", "setup scope"]

/-- Content indicators for deployment briefs (`deployment_indicators`). -/
def deploymentIndicators : List String :=
  ["deployment", "testing", "documentation", "release",
   "quality assurance", "deployment goal"]

/-- Python's `BriefParser._detect_brief_type`: filename substrings first
(setup/project, then deployment/deploy, then feature), then content
indicator phrases (setup before deployment), defaulting to feature. -/
def detectBriefType (filename content : String) : String :=
  if strHas (strLower filename) "setup" || strHas (strLower filename) "project" then "setup"
  else if strHas (strLower filename) "deployment" || strHas (strLower filename) "deploy" then
    "deployment"
  else if strHas (strLower filename) "feature" then "feature"
  else if setupIndicators.any (fun k => strHas (strLower content) k) then "setup"
  else if deploymentIndicators.any (fun k => strHas (strLower content) k) then "deployment"
  else "feature"

/-! ## Specification-side predicates used in the claim statements -/

/-- A reconstructed task agrees field-by-field with a persisted task
object. -/
def taskMatchesDict (t : Task) (td : TaskDict) : Prop :=
  t.id = td.id ∧ t.title = td.title ∧ t.description = td.description ∧
  t.priority.value = td.priority ∧ t.dependencies = td.dependencies ∧
  t.status.value = td.status

/-- A persisted task object that the `Task` constructor and enum lookups
accept: non-blank title and description, positive id, valid enum strings.
Dependencies are deliberately unconstrained. -/
def taskDictValid (td : TaskDict) : Prop :=
  strTrim td.title ≠ "" ∧ strTrim td.description ≠ "" ∧ 0 < td.id ∧
  (td.priority = "high" ∨ td.priority = "medium" ∨ td.priority = "low") ∧
  (td.status = "to-do" ∨ td.status = "in-progress" ∨ td.status = "done")

/-- The class invariant every Python `Task` instance satisfies (enforced by
`__post_init__` on every construction path). -/
def validTask (t : Task) : Prop :=
  strTrim t.title ≠ "" ∧ strTrim t.description ≠ "" ∧ 0 < t.id

instance : DecidablePred taskDictValid := fun td => by
  unfold taskDictValid
  infer_instance

instance : DecidablePred validTask := fun t => by
  unfold validTask
  infer_instance

instance (t : Task) (td : TaskDict) : Decidable (taskMatchesDict t td) := by
  unfold taskMatchesDict
  infer_instance

/-- Consecutive ids `start, start+1, ..., start+k-1`. -/
def idRange (start : Int) (k : Nat) : List Int :=
  (List.range k).map (fun (j : Nat) => start + (j : Int))

/-- Number of raw task strings the generation loop does not skip. -/
def countNonBlank (raws : List String) : Nat :=
  (raws.filter (fun r => !(strTrim r == ""))).length

/-- Total number of dependency-list entries across a task list. -/
def totalDeps (ts : List Task) : Nat :=
  (ts.map (fun t => t.dependencies.length)).sum

/-- `t` is `t₀` with some dependency edges appended by `apply_dependencies`
at threshold `θ`: every other field is kept, and each appended edge is new,
is no self-edge, and comes from a suggestion at or above the threshold. -/
def taskExtended (sugg : List DependencyRelationship) (θ : Rat)
    (t₀ t : Task) : Prop :=
  t.id = t₀.id ∧ t.title = t₀.title ∧ t.description = t₀.description ∧
  t.priority = t₀.priority ∧ t.status = t₀.status ∧
  ∃ extra, t.dependencies = t₀.dependencies ++ extra ∧ extra.Nodup ∧
    ∀ e ∈ extra, e ∉ t₀.dependencies ∧ e ≠ t₀.id ∧
      ∃ dep ∈ sugg, dep.fromTaskId = t₀.id ∧ dep.toTaskId = e ∧
        θ ≤ dep.confidence

/-- Two tasks with the same id whose dependency lists share a common prefix
`ds`, extended by `eH` resp. `eL` with `eH` a duplicate-free sub-collection
of `eL` disjoint from `ds` — the relation between the states of two
`apply_dependencies` runs at a higher resp. lower threshold. -/
def depsExtendPair (tH tL : Task) : Prop :=
  tH.id = tL.id ∧
  ∃ ds eH eL, tH.dependencies = ds ++ eH ∧ tL.dependencies = ds ++ eL ∧
    (∀ x ∈ eH, x ∈ eL) ∧ eH.Nodup ∧ ∀ x ∈ eH, x ∉ ds

/-- A suggestion edge used in the dependency-mapper examples. -/
def c6Edge (a b : Int) : DependencyRelationship :=
  { fromTaskId := a, toTaskId := b, relationshipType := "sequential",
    confidence := mkRat 8 10, reason := "r" }

/-- A suggestion list whose graph is 4→1, 1→2, 2→1: node 1 lies on the
cycle 1→2→1, and the only DFS root reaching it in insertion order is 4. -/
def c6Deps : List DependencyRelationship := [c6Edge 4 1, c6Edge 1 2, c6Edge 2 1]

/-- A persisted document holding one valid task with the maximal id 1. -/
def c1Doc : TasksDocument :=
  { tasks := [{ id := 1, title := "Setup CLI",
                description := "Create the cli foundation", priority := "high",
                dependencies := [], status := "to-do" }],
    metadata := { created := "c", updated := "u", description := "d" } }

/-- A parsed brief whose single raw task is non-blank but parses to an empty
title (the text before `": "` is blank). -/
def c1BadBrief : BriefContent :=
  { filePath := "briefs/feature_x.md", briefType := "feature",
    title := "Feature X", description := "Adds feature X",
    tasks := [": broken task line"], metadata := [] }

/-- A parsed brief whose single raw task parses cleanly. -/
def c1GoodBrief : BriefContent :=
  { filePath := "briefs/feature_y.md", briefType := "feature",
    title := "Feature Y", description := "Adds feature Y",
    tasks := ["Parser: build the parser module"], metadata := [] }

/-- A two-task collection with clean ids used by the C3 witness. -/
def c3Collection : TaskCollection :=
  { tasks := [{ id := 1, title := "A", description := "a", priority := .high,
                dependencies := [], status := .todo },
              { id := 2, title := "B", description := "b", priority := .low,
                dependencies := [], status := .todo }],
    nextId := 3 }

/-- A single medium-confidence suggestion 1→2 used by the C3 witness. -/
def c3Sugg : List DependencyRelationship :=
  [{ fromTaskId := 1, toTaskId := 2, relationshipType := "sequential",
     confidence := mkRat 6 10, reason := "r" }]

/-! ## Correctness of the recursion-stack DFS

The specification-side graph notions: an edge of an adjacency function, a
reachability relation, and existence of a (directed, nonempty) cycle. -/

/-- One edge of the adjacency function. -/
def EdgeRel (adj : Int → List Int) (a b : Int) : Prop := b ∈ adj a

/-- Reachability (zero or more edges). -/
def Reaches (adj : Int → List Int) (a b : Int) : Prop :=
  Relation.ReflTransGen (EdgeRel adj) a b

/-- The graph has a directed cycle: some node reaches itself in one or more
steps. -/
def CycleExists (adj : Int → List Int) : Prop :=
  ∃ w, Relation.TransGen (EdgeRel adj) w w

/-- The recursion stack (head most recent) is a chain of edges whose head
has an edge to the current node. -/
def StackPath (adj : Int → List Int) : List Int → Int → Prop
  | [], _ => True
  | p :: rest, v => EdgeRel adj p v ∧ StackPath adj rest p

/-- Safety of the fully-explored (black) nodes: everything such a node
reaches is itself fully explored, off the stack, and on no cycle. -/
def BlackOK (adj : Int → List Int) (visited stack : List Int) : Prop :=
  ∀ u ∈ visited, u ∉ stack → ∀ w, Reaches adj u w →
    w ∈ visited ∧ w ∉ stack ∧ ¬ Relation.TransGen (EdgeRel adj) w w

/-- Number of universe nodes not yet visited, the DFS termination measure. -/
def freshCount (U visited : List Int) : Nat :=
  (U.filter (fun x => decide (x ∉ visited))).length

/-- Specification-side reading of the suggested-edge graph: there is a
suggestion from `a` to `b`. -/
def suggEdge (deps : List DependencyRelationship) (a b : Int) : Prop :=
  ∃ s ∈ deps, s.fromTaskId = a ∧ s.toTaskId = b
/-- Specification-side edge of a collection's dependency graph: the task
stored under `a` lists `b` as a dependency. -/
def depEdge (c : TaskCollection) (a b : Int) : Prop :=
  ∃ t, getTask c a = some t ∧ b ∈ t.dependencies
/-! ## Concrete instances used by witnesses and counterexamples -/

/-- A synthetic task written straight into a collection's internal list. -/
def plainTask (i : Int) (deps : List Int) : Task :=
  { id := i, title := "T" ++ toString i, description := "task " ++ toString i,
    priority := .high, dependencies := deps, status := .todo }

/-- Three tasks forming the cycle 1 → 2 → 3 → 1, inserted directly into the
internal structures (bypassing `add_task`). -/
def cyc3Collection : TaskCollection :=
  { tasks := [plainTask 1 [2], plainTask 2 [3], plainTask 3 [1]], nextId := 4 }

/-- Three tasks forming the acyclic chain 3 → 2 → 1. -/
def chain3Collection : TaskCollection :=
  { tasks := [plainTask 1 [], plainTask 2 [1], plainTask 3 [2]], nextId := 4 }
/-- A persisted document with a self-dependency (task 2 on itself), a
forward reference (task 2 depends on task 3, stored later) and a dangling
reference (task 99 does not exist). -/
def c10ExampleDoc : TasksDocument :=
  { tasks :=
      [{ id := 2, title := "B", description := "depends forward, on itself and on a ghost",
         priority := "high", dependencies := [3, 2, 99], status := "to-do" },
       { id := 3, title := "C", description := "stored after its dependent",
         priority := "medium", dependencies := [], status := "done" }],
    metadata := { created := "2024-01-01T00:00:00", updated := "2024-01-02T00:00:00",
                  description := "previously generated" } }
/-- Parse oracle for the C8 witness: one parseable brief, one bad file. -/
def c8Oracle : String → Except String BriefContent := fun p =>
  if p = "bad.md" then .error "Failed to parse brief file bad.md"
  else .ok { filePath := p, briefType := "feature", title := "Feature",
             description := "demo", tasks := ["A: first step"], metadata := [] }

/-- The brief `c8Oracle` returns for "ok.md". -/
def c8Brief : BriefContent :=
  { filePath := "ok.md", briefType := "feature", title := "Feature",
    description := "demo", tasks := ["A: first step"], metadata := [] }

theorem freshCount_mono {visited visited' : List Int} (U : List Int)
    (h : ∀ x ∈ visited, x ∈ visited') : freshCount U visited' ≤ freshCount U visited := by
  refine List.Sublist.length_le (List.monotone_filter_right U fun a ha => ?_)
  simp only [decide_eq_true_eq] at ha ⊢
  exact fun hmem => ha (h a hmem)

theorem freshCount_cons_lt {U visited : List Int} {v : Int}
    (hvU : v ∈ U) (hv : v ∉ visited) :
    freshCount U (v :: visited) < freshCount U visited := by
  have hsub : List.Sublist (U.filter (fun x => decide (x ∉ v :: visited)))
      (U.filter (fun x => decide (x ∉ visited))) := by
    refine List.monotone_filter_right U fun a ha => ?_
    simp only [decide_eq_true_eq, List.mem_cons, not_or] at ha ⊢
    exact ha.2
  have hle : freshCount U (v :: visited) ≤ freshCount U visited := hsub.length_le
  rcases Nat.lt_or_ge (freshCount U (v :: visited)) (freshCount U visited) with h | h
  · exact h
  · exfalso
    have heq : (U.filter (fun x => decide (x ∉ v :: visited))).length
        = (U.filter (fun x => decide (x ∉ visited))).length := le_antisymm hle h
    have hlists := hsub.eq_of_length heq
    have hvp : v ∈ U.filter (fun x => decide (x ∉ visited)) :=
      List.mem_filter.2 ⟨hvU, by simpa using hv⟩
    rw [← hlists] at hvp
    have := List.of_mem_filter hvp
    simp at this

/-- Every node on the recursion stack reaches the current node in at least
one step. -/
theorem stackPath_transGen {adj : Int → List Int} :
    ∀ {stack : List Int} {v u : Int}, StackPath adj stack v → u ∈ stack →
      Relation.TransGen (EdgeRel adj) u v := by
  intro stack
  induction stack with
  | nil => intro v u _ hu; cases hu
  | cons p rest ih =>
    intro v u hpath hu
    rcases hpath with ⟨hedge, hrest⟩
    rcases List.mem_cons.1 hu with rfl | hu'
    · exact Relation.TransGen.single hedge
    · exact Relation.TransGen.tail (ih hrest hu') hedge

/-- A fold that freezes once the Boolean flag is set. -/
theorem foldl_frozen (g : List Int → Int → Bool × List Int) :
    ∀ (l : List Int) (vis : List Int),
      l.foldl (fun acc u => if acc.1 then acc else g acc.2 u) (true, vis) = (true, vis) := by
  intro l
  induction l with
  | nil => intro vis; rfl
  | cons a l ih => intro vis; simpa using ih vis

/-- Unfolding one step of the freezing fold when the flag is still false. -/
theorem foldl_cons_false (g : List Int → Int → Bool × List Int) (u : Int)
    (us : List Int) (vis : List Int) :
    (u :: us).foldl (fun acc x => if acc.1 then acc else g acc.2 x) (false, vis)
      = us.foldl (fun acc x => if acc.1 then acc else g acc.2 x) (g vis u) := rfl

/-- Soundness and growth of one DFS call: the visited set only grows and
stays inside the universe, and a true flag means a genuine cycle is
reachable from the root `r`. -/
theorem dfsVisit_sound (adj : Int → List Int) (U : List Int)
    (hU : ∀ u ∈ U, ∀ w ∈ adj u, w ∈ U) :
    ∀ (fuel : Nat) (stack visited : List Int) (v r : Int),
      freshCount U visited < fuel →
      (∀ x ∈ visited, x ∈ U) → v ∈ U →
      StackPath adj stack v →
      (∀ x ∈ stack, Reaches adj r x) → Reaches adj r v →
      (∀ x ∈ visited, x ∈ (dfsVisit adj fuel stack visited v).2) ∧
      (∀ x ∈ (dfsVisit adj fuel stack visited v).2, x ∈ U) ∧
      ((dfsVisit adj fuel stack visited v).1 = true →
        ∃ w, Reaches adj r w ∧ Relation.TransGen (EdgeRel adj) w w) := by
  intro fuel
  induction fuel with
  | zero =>
    intro stack visited v r hfresh
    exact absurd hfresh (Nat.not_lt_zero _)
  | succ fuel ih =>
    intro stack visited v r hfresh hvisU hvU hpath hrs hrv
    by_cases hst : v ∈ stack
    · simp only [dfsVisit, if_pos hst]
      exact ⟨fun x hx => hx, hvisU,
        fun _ => ⟨v, hrv, stackPath_transGen hpath hst⟩⟩
    · by_cases hvis : v ∈ visited
      · simp only [dfsVisit, if_neg hst, if_pos hvis]
        exact ⟨fun x hx => hx, hvisU, fun h => by cases h⟩
      · have hfold : ∀ (ns : List Int), (∀ x ∈ ns, x ∈ adj v) → ∀ (vis' : List Int),
            freshCount U vis' < fuel → (∀ x ∈ vis', x ∈ U) →
            (∀ x ∈ vis',
                x ∈ (ns.foldl (fun acc u => if acc.1 then acc
                      else dfsVisit adj fuel (v :: stack) acc.2 u) (false, vis')).2) ∧
            (∀ x ∈ (ns.foldl (fun acc u => if acc.1 then acc
                      else dfsVisit adj fuel (v :: stack) acc.2 u) (false, vis')).2, x ∈ U) ∧
            ((ns.foldl (fun acc u => if acc.1 then acc
                      else dfsVisit adj fuel (v :: stack) acc.2 u) (false, vis')).1 = true →
              ∃ w, Reaches adj r w ∧ Relation.TransGen (EdgeRel adj) w w) := by
          intro ns
          induction ns with
          | nil =>
            intro _ vis' _ hsubU
            exact ⟨fun x hx => hx, hsubU, fun h => by cases h⟩
          | cons u us ihns =>
            intro hns vis' hfresh' hsubU
            have hu : u ∈ adj v := hns u (List.mem_cons_self u us)
            have hus : ∀ x ∈ us, x ∈ adj v := fun x hx => hns x (List.mem_cons_of_mem u hx)
            rw [foldl_cons_false (dfsVisit adj fuel (v :: stack))]
            obtain ⟨hg₁, hU₁, ht₁⟩ := ih (v :: stack) vis' u r hfresh' hsubU
              (hU v hvU u hu) ⟨hu, hpath⟩
              (fun x hx => by
                rcases List.mem_cons.1 hx with rfl | hx'
                · exact hrv
                · exact hrs x hx')
              (Relation.ReflTransGen.tail hrv hu)
            cases hres : dfsVisit adj fuel (v :: stack) vis' u with
            | mk b vis₁ =>
              rw [hres] at hg₁ hU₁ ht₁
              cases b with
              | false =>
                obtain ⟨hg₂, hU₂, ht₂⟩ := ihns hus vis₁
                  (lt_of_le_of_lt (freshCount_mono U hg₁) hfresh') hU₁
                exact ⟨fun x hx => hg₂ x (hg₁ x hx), hU₂, ht₂⟩
              | true =>
                rw [foldl_frozen (dfsVisit adj fuel (v :: stack))]
                exact ⟨hg₁, hU₁, fun _ => ht₁ rfl⟩
        have hfresh2 : freshCount U (v :: visited) < fuel :=
          lt_of_lt_of_le (freshCount_cons_lt hvU hvis) (Nat.lt_succ_iff.1 hfresh)
        have hsubU2 : ∀ x ∈ v :: visited, x ∈ U := by
          intro x hx
          rcases List.mem_cons.1 hx with rfl | hx'
          · exact hvU
          · exact hvisU x hx'
        obtain ⟨hg, hUres, ht⟩ := hfold (adj v) (fun x hx => hx) (v :: visited) hfresh2 hsubU2
        simp only [dfsVisit, if_neg hst, if_neg hvis]
        exact ⟨fun x hx => hg x (List.mem_cons_of_mem v hx), hUres, ht⟩

/-- Completeness invariant of one DFS call: when the flag comes back false,
the current node and everything explored become safely black — nothing they
reach is on the caller's stack or on a cycle. -/
theorem dfsVisit_complete (adj : Int → List Int) (U : List Int)
    (hU : ∀ u ∈ U, ∀ w ∈ adj u, w ∈ U) :
    ∀ (fuel : Nat) (stack visited : List Int) (v : Int),
      freshCount U visited < fuel →
      (∀ x ∈ visited, x ∈ U) → v ∈ U →
      (∀ x ∈ stack, x ∈ visited) →
      BlackOK adj visited stack →
      (dfsVisit adj fuel stack visited v).1 = false →
      (∀ x ∈ visited, x ∈ (dfsVisit adj fuel stack visited v).2) ∧
      v ∈ (dfsVisit adj fuel stack visited v).2 ∧
      (∀ x ∈ (dfsVisit adj fuel stack visited v).2, x ∈ U) ∧
      v ∉ stack ∧
      BlackOK adj (dfsVisit adj fuel stack visited v).2 stack := by
  intro fuel
  induction fuel with
  | zero =>
    intro stack visited v hfresh
    exact absurd hfresh (Nat.not_lt_zero _)
  | succ fuel ih =>
    intro stack visited v hfresh hvisU hvU hstacksub hblack hflag
    by_cases hst : v ∈ stack
    · simp only [dfsVisit, if_pos hst] at hflag
      cases hflag
    · by_cases hvis : v ∈ visited
      · simp only [dfsVisit, if_neg hst, if_pos hvis] at hflag ⊢
        exact ⟨fun x hx => hx, hvis, hvisU, hst, hblack⟩
      · have hfold : ∀ (ns : List Int), (∀ x ∈ ns, x ∈ adj v) → ∀ (vis' : List Int),
            freshCount U vis' < fuel → (∀ x ∈ vis', x ∈ U) →
            (∀ x ∈ v :: stack, x ∈ vis') →
            BlackOK adj vis' (v :: stack) →
            (ns.foldl (fun acc u => if acc.1 then acc
                else dfsVisit adj fuel (v :: stack) acc.2 u) (false, vis')).1 = false →
            (∀ x ∈ vis',
                x ∈ (ns.foldl (fun acc u => if acc.1 then acc
                      else dfsVisit adj fuel (v :: stack) acc.2 u) (false, vis')).2) ∧
            (∀ x ∈ (ns.foldl (fun acc u => if acc.1 then acc
                      else dfsVisit adj fuel (v :: stack) acc.2 u) (false, vis')).2, x ∈ U) ∧
            (∀ u ∈ ns, u ∈ (ns.foldl (fun acc u => if acc.1 then acc
                      else dfsVisit adj fuel (v :: stack) acc.2 u) (false, vis')).2
              ∧ u ∉ v :: stack) ∧
            BlackOK adj (ns.foldl (fun acc u => if acc.1 then acc
                      else dfsVisit adj fuel (v :: stack) acc.2 u) (false, vis')).2
              (v :: stack) := by
          intro ns
          induction ns with
          | nil =>
            intro _ vis' _ hsubU _ hblack' _
            exact ⟨fun x hx => hx, hsubU, fun u hu => absurd hu (List.not_mem_nil u), hblack'⟩
          | cons u us ihns =>
            intro hns vis' hfresh' hsubU hstackmem hblack' hflag'
            have hu : u ∈ adj v := hns u (List.mem_cons_self u us)
            have hus : ∀ x ∈ us, x ∈ adj v := fun x hx => hns x (List.mem_cons_of_mem u hx)
            rw [foldl_cons_false (dfsVisit adj fuel (v :: stack))] at hflag' ⊢
            cases hres : dfsVisit adj fuel (v :: stack) vis' u with
            | mk b vis₁ =>
              rw [hres] at hflag'
              cases b with
              | true =>
                rw [foldl_frozen (dfsVisit adj fuel (v :: stack))] at hflag'
                cases hflag'
              | false =>
                have hone := ih (v :: stack) vis' u hfresh' hsubU (hU v hvU u hu)
                  hstackmem hblack' (by rw [hres])
                rw [hres] at hone
                obtain ⟨hg₁, hu₁, hU₁, hust₁, hblack₁⟩ := hone
                obtain ⟨hg₂, hU₂, hmem₂, hblack₂⟩ := ihns hus vis₁
                  (lt_of_le_of_lt (freshCount_mono U hg₁) hfresh') hU₁
                  (fun x hx => hg₁ x (hstackmem x hx)) hblack₁ hflag'
                refine ⟨fun x hx => hg₂ x (hg₁ x hx), hU₂, ?_, hblack₂⟩
                intro x hx
                rcases List.mem_cons.1 hx with rfl | hx'
                · exact ⟨hg₂ x hu₁, hust₁⟩
                · exact hmem₂ x hx'
        have hfresh2 : freshCount U (v :: visited) < fuel :=
          lt_of_lt_of_le (freshCount_cons_lt hvU hvis) (Nat.lt_succ_iff.1 hfresh)
        have hsubU2 : ∀ x ∈ v :: visited, x ∈ U := by
          intro x hx
          rcases List.mem_cons.1 hx with rfl | hx'
          · exact hvU
          · exact hvisU x hx'
        have hstack2 : ∀ x ∈ v :: stack, x ∈ v :: visited := by
          intro x hx
          rcases List.mem_cons.1 hx with rfl | hx'
          · exact List.mem_cons_self x visited
          · exact List.mem_cons_of_mem v (hstacksub x hx')
        have hblack2 : BlackOK adj (v :: visited) (v :: stack) := by
          intro u hu hust w hreach
          have huv : u ≠ v := fun h => hust (h ▸ List.mem_cons_self v stack)
          have hu' : u ∈ visited := by
            rcases List.mem_cons.1 hu with rfl | h
            · exact absurd rfl huv
            · exact h
          have hust' : u ∉ stack := fun h => hust (List.mem_cons_of_mem v h)
          obtain ⟨hw1, hw2, hw3⟩ := hblack u hu' hust' w hreach
          refine ⟨List.mem_cons_of_mem v hw1, ?_, hw3⟩
          intro hw
          rcases List.mem_cons.1 hw with rfl | h
          · exact hvis hw1
          · exact hw2 h
        simp only [dfsVisit, if_neg hst, if_neg hvis] at hflag ⊢
        obtain ⟨hg, hUres, hns, hB'⟩ :=
          hfold (adj v) (fun x hx => hx) (v :: visited) hfresh2 hsubU2 hstack2 hblack2 hflag
        have hvres : v ∈ (((adj v).foldl (fun acc u => if acc.1 then acc
            else dfsVisit adj fuel (v :: stack) acc.2 u) (false, v :: visited)).2) :=
          hg v (List.mem_cons_self v visited)
        refine ⟨fun x hx => hg x (List.mem_cons_of_mem v hx), hvres, hUres, hst, ?_⟩
        intro u hu hust w hreach
        by_cases huv : u = v
        · subst huv
          rcases Relation.ReflTransGen.cases_head hreach with rfl | ⟨u₁, hedge, hreach₁⟩
          · refine ⟨hvres, hst, ?_⟩
            intro hcyc
            obtain ⟨u₁, hedge, hreach'⟩ := (Relation.TransGen.head'_iff).1 hcyc
            have hu₁ := hns u₁ hedge
            have hthis := hB' u₁ hu₁.1 hu₁.2 u hreach'
            exact hthis.2.1 (List.mem_cons_self u stack)
          · have hu₁ := hns u₁ hedge
            have hres := hB' u₁ hu₁.1 hu₁.2 w hreach₁
            exact ⟨hres.1, fun hw => hres.2.1 (List.mem_cons_of_mem u hw), hres.2.2⟩
        · have hust' : u ∉ v :: stack := by
            intro h
            rcases List.mem_cons.1 h with rfl | h'
            · exact huv rfl
            · exact hust h'
          have hres := hB' u hu hust' w hreach
          exact ⟨hres.1, fun hw => hres.2.1 (List.mem_cons_of_mem v hw), hres.2.2⟩

/-- If the driver loop of `_has_circular_dependencies` reports true, the
graph really has a cycle. -/
theorem anyCycleRoots_sound (adj : Int → List Int) (U : List Int)
    (hU : ∀ u ∈ U, ∀ w ∈ adj u, w ∈ U) (fuel : Nat) :
    ∀ (roots visited : List Int),
      freshCount U visited < fuel → (∀ x ∈ visited, x ∈ U) → (∀ x ∈ roots, x ∈ U) →
      anyCycleRoots adj fuel visited roots = true → CycleExists adj := by
  intro roots
  induction roots with
  | nil =>
    intro visited _ _ _ h
    cases h
  | cons r rs ih =>
    intro visited hfresh hvisU hrootsU h
    have hrU : r ∈ U := hrootsU r (List.mem_cons_self r rs)
    have hrsU : ∀ x ∈ rs, x ∈ U := fun x hx => hrootsU x (List.mem_cons_of_mem r hx)
    by_cases hrv : r ∈ visited
    · rw [anyCycleRoots, if_pos hrv] at h
      exact ih visited hfresh hvisU hrsU h
    · rw [anyCycleRoots, if_neg hrv] at h
      obtain ⟨hg, hsubU, ht⟩ := dfsVisit_sound adj U hU fuel [] visited r r hfresh hvisU hrU
        trivial (fun x hx => absurd hx (List.not_mem_nil x)) Relation.ReflTransGen.refl
      cases hflag : (dfsVisit adj fuel [] visited r).1 with
      | true =>
        obtain ⟨w, _, hw⟩ := ht hflag
        exact ⟨w, hw⟩
      | false =>
        rw [hflag] at h
        simp only [if_neg Bool.false_ne_true] at h
        exact ih (dfsVisit adj fuel [] visited r).2
          (lt_of_le_of_lt (freshCount_mono U hg) hfresh) hsubU hrsU h

/-- If the driver loop of `_has_circular_dependencies` reports false and the
roots cover every node with an outgoing edge, the graph is acyclic. -/
theorem anyCycleRoots_false (adj : Int → List Int) (U : List Int)
    (hU : ∀ u ∈ U, ∀ w ∈ adj u, w ∈ U) (fuel : Nat) :
    ∀ (roots visited : List Int),
      freshCount U visited < fuel → (∀ x ∈ visited, x ∈ U) → (∀ x ∈ roots, x ∈ U) →
      BlackOK adj visited [] →
      (∀ w, adj w ≠ [] → w ∈ roots ∨ w ∈ visited) →
      anyCycleRoots adj fuel visited roots = false → ¬ CycleExists adj := by
  intro roots
  induction roots with
  | nil =>
    intro visited _ _ _ hblack hcover _
    rintro ⟨w, hcyc⟩
    obtain ⟨u₁, hedge, _⟩ := (Relation.TransGen.head'_iff).1 hcyc
    have hadj : adj w ≠ [] := by
      intro hnil
      have : u₁ ∈ adj w := hedge
      rw [hnil] at this
      cases this
    rcases hcover w hadj with h | h
    · cases h
    · exact (hblack w h (List.not_mem_nil w) w Relation.ReflTransGen.refl).2.2 hcyc
  | cons r rs ih =>
    intro visited hfresh hvisU hrootsU hblack hcover h
    have hrU : r ∈ U := hrootsU r (List.mem_cons_self r rs)
    have hrsU : ∀ x ∈ rs, x ∈ U := fun x hx => hrootsU x (List.mem_cons_of_mem r hx)
    by_cases hrv : r ∈ visited
    · rw [anyCycleRoots, if_pos hrv] at h
      refine ih visited hfresh hvisU hrsU hblack ?_ h
      intro w hw
      rcases hcover w hw with hmem | hmem
      · rcases List.mem_cons.1 hmem with rfl | h'
        · exact Or.inr hrv
        · exact Or.inl h'
      · exact Or.inr hmem
    · rw [anyCycleRoots, if_neg hrv] at h
      cases hflag : (dfsVisit adj fuel [] visited r).1 with
      | true =>
        rw [hflag] at h
        simp at h
      | false =>
        rw [hflag] at h
        simp only [if_neg Bool.false_ne_true] at h
        obtain ⟨hg, hr, hsubU, _, hblack'⟩ := dfsVisit_complete adj U hU fuel [] visited r
          hfresh hvisU hrU (fun x hx => absurd hx (List.not_mem_nil x)) hblack hflag
        refine ih (dfsVisit adj fuel [] visited r).2
          (lt_of_le_of_lt (freshCount_mono U hg) hfresh) hsubU hrsU hblack' ?_ h
        intro w hw
        rcases hcover w hw with hmem | hmem
        · rcases List.mem_cons.1 hmem with rfl | h'
          · exact Or.inr hr
          · exact Or.inl h'
        · exact Or.inr (hg w hmem)

/-- Every root the mapper's driver loop records really reaches a cycle. -/
theorem collectCycleRoots_sound (adj : Int → List Int) (U : List Int)
    (hU : ∀ u ∈ U, ∀ w ∈ adj u, w ∈ U) (fuel : Nat) :
    ∀ (roots visited : List Int),
      freshCount U visited < fuel → (∀ x ∈ visited, x ∈ U) → (∀ x ∈ roots, x ∈ U) →
      ∀ n ∈ collectCycleRoots adj fuel visited roots,
        ∃ w, Reaches adj n w ∧ Relation.TransGen (EdgeRel adj) w w := by
  intro roots
  induction roots with
  | nil =>
    intro visited _ _ _ n hn
    cases hn
  | cons r rs ih =>
    intro visited hfresh hvisU hrootsU n hn
    have hrU : r ∈ U := hrootsU r (List.mem_cons_self r rs)
    have hrsU : ∀ x ∈ rs, x ∈ U := fun x hx => hrootsU x (List.mem_cons_of_mem r hx)
    by_cases hrv : r ∈ visited
    · rw [collectCycleRoots, if_pos hrv] at hn
      exact ih visited hfresh hvisU hrsU n hn
    · rw [collectCycleRoots, if_neg hrv] at hn
      obtain ⟨hg, hsubU, ht⟩ := dfsVisit_sound adj U hU fuel [] visited r r hfresh hvisU hrU
        trivial (fun x hx => absurd hx (List.not_mem_nil x)) Relation.ReflTransGen.refl
      have hrec : ∀ m ∈ collectCycleRoots adj fuel (dfsVisit adj fuel [] visited r).2 rs,
          ∃ w, Reaches adj m w ∧ Relation.TransGen (EdgeRel adj) w w :=
        ih (dfsVisit adj fuel [] visited r).2
          (lt_of_le_of_lt (freshCount_mono U hg) hfresh) hsubU hrsU
      cases hflag : (dfsVisit adj fuel [] visited r).1 with
      | true =>
        rw [hflag] at hn
        simp only [if_pos rfl] at hn
        rcases List.mem_cons.1 hn with rfl | hn'
        · exact ht hflag
        · exact hrec n hn'
      | false =>
        rw [hflag] at hn
        simp only [if_neg Bool.false_ne_true] at hn
        exact hrec n hn

/-- If the mapper's driver loop records nothing and the roots cover every
node with an outgoing edge, the graph is acyclic. -/
theorem collectCycleRoots_nil (adj : Int → List Int) (U : List Int)
    (hU : ∀ u ∈ U, ∀ w ∈ adj u, w ∈ U) (fuel : Nat) :
    ∀ (roots visited : List Int),
      freshCount U visited < fuel → (∀ x ∈ visited, x ∈ U) → (∀ x ∈ roots, x ∈ U) →
      BlackOK adj visited [] →
      (∀ w, adj w ≠ [] → w ∈ roots ∨ w ∈ visited) →
      collectCycleRoots adj fuel visited roots = [] → ¬ CycleExists adj := by
  intro roots
  induction roots with
  | nil =>
    intro visited _ _ _ hblack hcover _
    rintro ⟨w, hcyc⟩
    obtain ⟨u₁, hedge, _⟩ := (Relation.TransGen.head'_iff).1 hcyc
    have hadj : adj w ≠ [] := by
      intro hnil
      have : u₁ ∈ adj w := hedge
      rw [hnil] at this
      cases this
    rcases hcover w hadj with h | h
    · cases h
    · exact (hblack w h (List.not_mem_nil w) w Relation.ReflTransGen.refl).2.2 hcyc
  | cons r rs ih =>
    intro visited hfresh hvisU hrootsU hblack hcover h
    have hrU : r ∈ U := hrootsU r (List.mem_cons_self r rs)
    have hrsU : ∀ x ∈ rs, x ∈ U := fun x hx => hrootsU x (List.mem_cons_of_mem r hx)
    by_cases hrv : r ∈ visited
    · rw [collectCycleRoots, if_pos hrv] at h
      refine ih visited hfresh hvisU hrsU hblack ?_ h
      intro w hw
      rcases hcover w hw with hmem | hmem
      · rcases List.mem_cons.1 hmem with rfl | h'
        · exact Or.inr hrv
        · exact Or.inl h'
      · exact Or.inr hmem
    · rw [collectCycleRoots, if_neg hrv] at h
      cases hflag : (dfsVisit adj fuel [] visited r).1 with
      | true =>
        rw [hflag] at h
        simp at h
      | false =>
        rw [hflag] at h
        simp only [if_neg Bool.false_ne_true] at h
        obtain ⟨hg, hr, hsubU, _, hblack'⟩ := dfsVisit_complete adj U hU fuel [] visited r
          hfresh hvisU hrU (fun x hx => absurd hx (List.not_mem_nil x)) hblack hflag
        refine ih (dfsVisit adj fuel [] visited r).2
          (lt_of_le_of_lt (freshCount_mono U hg) hfresh) hsubU hrsU hblack' ?_ h
        intro w hw
        rcases hcover w hw with hmem | hmem
        · rcases List.mem_cons.1 hmem with rfl | h'
          · exact Or.inr hr
          · exact Or.inl h'
        · exact Or.inr (hg w hmem)

theorem freshCount_nil (U : List Int) : freshCount U [] = U.length := by
  simp [freshCount]

theorem getTask_mem {c : TaskCollection} {i : Int} {t : Task}
    (h : getTask c i = some t) : t ∈ c.tasks ∧ t.id = i := by
  refine ⟨List.mem_of_find?_eq_some h, ?_⟩
  have := List.find?_some h
  simpa using this

/-- The DFS of `_has_circular_dependencies` returns true exactly when the
collection's dependency graph has a directed cycle. -/
theorem hasCircularDeps_iff (c : TaskCollection) :
    hasCircularDeps c = true ↔ CycleExists (depAdj c) := by
  set U : List Int := collectionIds c ++ c.tasks.flatMap (fun t => t.dependencies) with hUdef
  have hU : ∀ u ∈ U, ∀ w ∈ depAdj c u, w ∈ U := by
    intro u _ w hw
    unfold depAdj at hw
    cases hfind : getTask c u with
    | none => rw [hfind] at hw; cases hw
    | some t =>
      rw [hfind] at hw
      have hmem : t ∈ c.tasks := (getTask_mem hfind).1
      exact List.mem_append_right _ (List.mem_flatMap.2 ⟨t, hmem, hw⟩)
  have hfresh : freshCount U [] < collectionFuel c := by
    rw [freshCount_nil]
    exact Nat.lt_succ_self _
  have hvisU : ∀ x ∈ ([] : List Int), x ∈ U := fun x hx => absurd hx (List.not_mem_nil x)
  have hrootsU : ∀ x ∈ collectionIds c, x ∈ U := fun x hx => List.mem_append_left _ hx
  constructor
  · intro h
    exact anyCycleRoots_sound (depAdj c) U hU (collectionFuel c) (collectionIds c) []
      hfresh hvisU hrootsU h
  · intro hcyc
    cases hb : hasCircularDeps c with
    | true => rfl
    | false =>
      exfalso
      have hcover : ∀ w, depAdj c w ≠ [] → w ∈ collectionIds c ∨ w ∈ ([] : List Int) := by
        intro w hw
        unfold depAdj at hw
        cases hfind : getTask c w with
        | none => rw [hfind] at hw; exact absurd rfl hw
        | some t =>
          obtain ⟨hmem, hid⟩ := getTask_mem hfind
          exact Or.inl (List.mem_map.2 ⟨t, hmem, hid⟩)
      exact anyCycleRoots_false (depAdj c) U hU (collectionFuel c) (collectionIds c) []
        hfresh hvisU hrootsU (fun u hu => absurd hu (List.not_mem_nil u)) hcover hb hcyc

theorem graphAdj_cons (k : Int) (vs : List Int) (rest : List (Int × List Int)) (x : Int) :
    graphAdj ((k, vs) :: rest) x = if k = x then vs else graphAdj rest x := by
  by_cases hkx : k = x
  · have hb : (k == x) = true := by simpa using hkx
    simp [graphAdj, List.find?_cons, hb, hkx]
  · have hb : (k == x) = false := by simpa using hkx
    simp [graphAdj, List.find?_cons, hb, hkx]

theorem graphAdj_append (g : List (Int × List Int)) (a b x : Int) :
    graphAdj (graphAppendEdge g a b) x
      = if x = a then graphAdj g x ++ [b] else graphAdj g x := by
  induction g with
  | nil =>
    by_cases hxa : x = a
    · subst hxa
      simp [graphAdj, graphAppendEdge, graphAdj_cons]
    · have hax : ¬(a = x) := fun h => hxa h.symm
      simp [graphAdj, graphAppendEdge, graphAdj_cons, hxa, hax]
  | cons kv rest ih =>
    rcases kv with ⟨k, vs⟩
    by_cases hka : k = a
    · subst hka
      rw [graphAppendEdge, if_pos (by simp)]
      by_cases hxk : x = k
      · subst hxk
        rw [if_pos rfl, graphAdj_cons, graphAdj_cons, if_pos rfl, if_pos rfl]
      · have hkx : ¬(k = x) := fun h => hxk h.symm
        rw [if_neg hxk, graphAdj_cons, graphAdj_cons, if_neg hkx, if_neg hkx]
    · rw [graphAppendEdge, if_neg (by simpa using hka)]
      by_cases hxk : x = k
      · subst hxk
        have hxa : ¬(x = a) := hka
        rw [if_neg hxa, graphAdj_cons, graphAdj_cons, if_pos rfl, if_pos rfl]
      · have hkx : ¬(k = x) := fun h => hxk h.symm
        rw [graphAdj_cons, graphAdj_cons, if_neg hkx, if_neg hkx, ih]

theorem mem_graphAdj_foldl (deps : List DependencyRelationship) :
    ∀ (g : List (Int × List Int)) (a b : Int),
      b ∈ graphAdj (deps.foldl (fun g d => graphAppendEdge g d.fromTaskId d.toTaskId) g) a
        ↔ b ∈ graphAdj g a ∨ suggEdge deps a b := by
  induction deps with
  | nil =>
    intro g a b
    simp [suggEdge]
  | cons d ds ih =>
    intro g a b
    rw [List.foldl_cons]
    rw [ih (graphAppendEdge g d.fromTaskId d.toTaskId) a b]
    rw [graphAdj_append]
    constructor
    · intro h
      rcases h with h | h
      · by_cases hxa : a = d.fromTaskId
        · rw [if_pos hxa] at h
          rcases List.mem_append.1 h with h' | h'
          · exact Or.inl h'
          · refine Or.inr ⟨d, List.mem_cons_self d ds, hxa.symm, ?_⟩
            have hb : b = d.toTaskId := by simpa using h'
            exact hb.symm
        · rw [if_neg hxa] at h
          exact Or.inl h
      · obtain ⟨s, hs, h1, h2⟩ := h
        exact Or.inr ⟨s, List.mem_cons_of_mem d hs, h1, h2⟩
    · intro h
      rcases h with h | h
      · by_cases hxa : a = d.fromTaskId
        · rw [if_pos hxa]
          exact Or.inl (List.mem_append_left _ h)
        · rw [if_neg hxa]
          exact Or.inl h
      · obtain ⟨s, hs, h1, h2⟩ := h
        rcases List.mem_cons.1 hs with rfl | hs'
        · rw [if_pos h1.symm]
          exact Or.inl (List.mem_append_right _ (by simp [h2]))
        · exact Or.inr ⟨s, hs', h1, h2⟩

/-- Membership in the built adjacency map is exactly the existence of a
suggestion with that source and target. -/
theorem mem_graphAdj_iff (deps : List DependencyRelationship) (a b : Int) :
    b ∈ graphAdj (buildGraph deps) a ↔ suggEdge deps a b := by
  have h := mem_graphAdj_foldl deps [] a b
  simpa [buildGraph, graphAdj] using h

theorem transGen_congr {P Q : Int → Int → Prop} (h : ∀ a b, P a b ↔ Q a b) {x y : Int} :
    Relation.TransGen P x y ↔ Relation.TransGen Q x y :=
  ⟨Relation.TransGen.mono (fun a b hab => (h a b).1 hab),
   Relation.TransGen.mono (fun a b hab => (h a b).2 hab)⟩

theorem reflTransGen_congr {P Q : Int → Int → Prop} (h : ∀ a b, P a b ↔ Q a b) {x y : Int} :
    Relation.ReflTransGen P x y ↔ Relation.ReflTransGen Q x y :=
  ⟨Relation.ReflTransGen.mono (fun a b hab => (h a b).1 hab),
   Relation.ReflTransGen.mono (fun a b hab => (h a b).2 hab)⟩

/-- Every warning of `_detect_circular_dependencies` names a node from which
a cycle of the suggested-edge graph is reachable. -/
theorem detectCircular_sound (deps : List DependencyRelationship) :
    ∀ s ∈ detectCircularDependencies deps, ∃ n, s = circularRootMsg n ∧
      ∃ w, Relation.ReflTransGen (suggEdge deps) n w ∧
        Relation.TransGen (suggEdge deps) w w := by
  intro s hs
  set g := buildGraph deps with hg
  set UG : List Int := (g.map (fun kv => kv.1) ++ g.flatMap (fun kv => kv.2)) with hUG
  have hU : ∀ u ∈ UG, ∀ w ∈ graphAdj g u, w ∈ UG := by
    intro u _ w hw
    unfold graphAdj at hw
    cases hfind : g.find? (fun kv => kv.1 == u) with
    | none => rw [hfind] at hw; cases hw
    | some kv =>
      rw [hfind] at hw
      have hmem : kv ∈ g := List.mem_of_find?_eq_some hfind
      exact List.mem_append_right _ (List.mem_flatMap.2 ⟨kv, hmem, hw⟩)
  obtain ⟨n, hn, rfl⟩ := List.mem_map.1 hs
  obtain ⟨w, hr, hc⟩ := collectCycleRoots_sound (graphAdj g) UG hU (graphFuel g)
    (g.map (fun kv => kv.1)) []
    (by rw [freshCount_nil]; exact Nat.lt_succ_self _)
    (fun x hx => absurd hx (List.not_mem_nil x))
    (fun x hx => List.mem_append_left _ hx) n hn
  refine ⟨n, rfl, w, ?_, ?_⟩
  · exact (reflTransGen_congr (fun a b => mem_graphAdj_iff deps a b)).1 hr
  · exact (transGen_congr (fun a b => mem_graphAdj_iff deps a b)).1 hc

/-- The mapper's cycle detection emits at least one warning exactly when the
suggested-edge graph has a directed cycle. -/
theorem detectCircular_ne_nil_iff (deps : List DependencyRelationship) :
    detectCircularDependencies deps ≠ [] ↔
      ∃ w, Relation.TransGen (suggEdge deps) w w := by
  set g := buildGraph deps with hg
  set UG : List Int := (g.map (fun kv => kv.1) ++ g.flatMap (fun kv => kv.2)) with hUG
  have hU : ∀ u ∈ UG, ∀ w ∈ graphAdj g u, w ∈ UG := by
    intro u _ w hw
    unfold graphAdj at hw
    cases hfind : g.find? (fun kv => kv.1 == u) with
    | none => rw [hfind] at hw; cases hw
    | some kv =>
      rw [hfind] at hw
      have hmem : kv ∈ g := List.mem_of_find?_eq_some hfind
      exact List.mem_append_right _ (List.mem_flatMap.2 ⟨kv, hmem, hw⟩)
  have hfresh : freshCount UG [] < graphFuel g := by
    rw [freshCount_nil]; exact Nat.lt_succ_self _
  have hvisU : ∀ x ∈ ([] : List Int), x ∈ UG := fun x hx => absurd hx (List.not_mem_nil x)
  have hrootsU : ∀ x ∈ g.map (fun kv => kv.1), x ∈ UG := fun x hx => List.mem_append_left _ hx
  constructor
  · intro h
    have hne : collectCycleRoots (graphAdj g) (graphFuel g) [] (g.map (fun kv => kv.1)) ≠ [] := by
      intro hnil
      exact h (by simp [detectCircularDependencies, ← hg, hnil])
    cases hcol : collectCycleRoots (graphAdj g) (graphFuel g) [] (g.map (fun kv => kv.1)) with
    | nil => exact absurd hcol hne
    | cons n ns =>
      obtain ⟨w, _, hc⟩ := collectCycleRoots_sound (graphAdj g) UG hU (graphFuel g)
        (g.map (fun kv => kv.1)) [] hfresh hvisU hrootsU n
        (by rw [hcol]; exact List.mem_cons_self n ns)
      exact ⟨w, (transGen_congr (fun a b => mem_graphAdj_iff deps a b)).1 hc⟩
  · intro hcyc hnil
    have hcover : ∀ w, graphAdj g w ≠ [] → w ∈ g.map (fun kv => kv.1) ∨ w ∈ ([] : List Int) := by
      intro w hw
      unfold graphAdj at hw
      cases hfind : g.find? (fun kv => kv.1 == w) with
      | none => rw [hfind] at hw; exact absurd rfl hw
      | some kv =>
        have hmem : kv ∈ g := List.mem_of_find?_eq_some hfind
        have hkey : kv.1 = w := by
          have := List.find?_some hfind
          simpa using this
        exact Or.inl (List.mem_map.2 ⟨kv, hmem, hkey⟩)
    have hcnil : collectCycleRoots (graphAdj g) (graphFuel g) [] (g.map (fun kv => kv.1)) = [] := by
      cases hcol : collectCycleRoots (graphAdj g) (graphFuel g) [] (g.map (fun kv => kv.1)) with
      | nil => rfl
      | cons n ns =>
        exfalso
        have hform : detectCircularDependencies deps
            = circularRootMsg n :: ns.map circularRootMsg := by
          simp [detectCircularDependencies, ← hg, hcol]
        rw [hform] at hnil
        cases hnil
    refine collectCycleRoots_nil (graphAdj g) UG hU (graphFuel g) (g.map (fun kv => kv.1)) []
      hfresh hvisU hrootsU (fun u hu => absurd hu (List.not_mem_nil u)) hcover hcnil ?_
    obtain ⟨w, hw⟩ := hcyc
    exact ⟨w, (transGen_congr (fun a b => mem_graphAdj_iff deps a b)).2 hw⟩

theorem data_head_T (x y : String) : ("Task " ++ x ++ y).data.head? = some 'T' := by
  rw [String.data_append, String.data_append]
  rfl

theorem data_head_T3 (x y z : String) :
    ("Task " ++ x ++ y ++ z).data.head? = some 'T' := by
  rw [String.data_append, String.data_append, String.data_append]
  rfl

theorem selfDepMsg_ne_circular (i : Int) : selfDepMsg i ≠ circularMsg := by
  intro h
  have h1 : (selfDepMsg i).data.head? = some 'T' :=
    data_head_T (toString i) " depends on itself"
  have h2 : circularMsg.data.head? = some 'C' := rfl
  rw [h] at h1
  rw [h1] at h2
  simp at h2

theorem missingDepMsg_ne_circular (i d : Int) : missingDepMsg i d ≠ circularMsg := by
  intro h
  have h1 : (missingDepMsg i d).data.head? = some 'T' :=
    data_head_T3 (toString i) " depends on non-existent task " (toString d)
  have h2 : circularMsg.data.head? = some 'C' := rfl
  rw [h] at h1
  rw [h1] at h2
  simp at h2

theorem selfDep_mem_validate {c : TaskCollection} {t : Task}
    (ht : t ∈ c.tasks) (hself : t.id ∈ t.dependencies) :
    selfDepMsg t.id ∈ validateDependencies c := by
  unfold validateDependencies
  refine List.mem_append_left _ (List.mem_flatMap.2 ⟨t, ht, List.mem_append_left _ ?_⟩)
  rw [if_pos hself]
  exact List.mem_singleton_self _

theorem missingDep_mem_validate {c : TaskCollection} {t : Task} {d : Int}
    (ht : t ∈ c.tasks) (hd : d ∈ t.dependencies) (hmiss : containsTask c d = false) :
    missingDepMsg t.id d ∈ validateDependencies c := by
  unfold validateDependencies
  refine List.mem_append_left _ (List.mem_flatMap.2 ⟨t, ht, List.mem_append_right _ ?_⟩)
  exact List.mem_map.2 ⟨d, List.mem_filter.2 ⟨hd, by simp [hmiss]⟩, rfl⟩

theorem circular_mem_validate_iff (c : TaskCollection) :
    circularMsg ∈ validateDependencies c ↔ hasCircularDeps c = true := by
  unfold validateDependencies
  rw [List.mem_append]
  constructor
  · rintro (h | h)
    · exfalso
      obtain ⟨t, _, hmem⟩ := List.mem_flatMap.1 h
      rcases List.mem_append.1 hmem with h' | h'
      · by_cases hself : t.id ∈ t.dependencies
        · rw [if_pos hself] at h'
          have : circularMsg = selfDepMsg t.id := List.mem_singleton.1 h'
          exact selfDepMsg_ne_circular t.id this.symm
        · rw [if_neg hself] at h'
          cases h'
      · obtain ⟨d, _, hEq⟩ := List.mem_map.1 h'
        exact missingDepMsg_ne_circular t.id d hEq
    · cases hb : hasCircularDeps c with
      | true => rfl
      | false =>
        rw [hb] at h
        simp at h
  · intro hb
    refine Or.inr ?_
    rw [hb]
    simp

theorem depEdge_iff (c : TaskCollection) (a b : Int) :
    EdgeRel (depAdj c) a b ↔ depEdge c a b := by
  unfold EdgeRel depAdj depEdge
  cases hfind : getTask c a with
  | none => simp [hfind]
  | some t => simp [hfind]

/-- C2: `validate_dependencies` reports every self-dependent task, every
(task, dependency) pair whose target id is absent, and contains the circular
warning exactly when the dependency graph has a directed cycle.  The
function is total (the Python code only reads the structures), so it never
raises. -/
theorem claim_C2 (c : TaskCollection) :
    (∀ t ∈ c.tasks, t.id ∈ t.dependencies →
      selfDepMsg t.id ∈ validateDependencies c) ∧
    (∀ t ∈ c.tasks, ∀ d ∈ t.dependencies, containsTask c d = false →
      missingDepMsg t.id d ∈ validateDependencies c) ∧
    (circularMsg ∈ validateDependencies c ↔
      ∃ v, Relation.TransGen (depEdge c) v v) := by
  refine ⟨fun t ht hself => selfDep_mem_validate ht hself,
    fun t ht d hd hmiss => missingDep_mem_validate ht hd hmiss, ?_⟩
  rw [circular_mem_validate_iff, hasCircularDeps_iff]
  unfold CycleExists
  exact exists_congr fun v => transGen_congr (depEdge_iff c)

/-- Witness for C2 at the synthetic three-node cycle and chain: the cycle
collection's output contains the circular warning (so the graph provably has
a cycle), and the chain collection's output omits it (so it provably has
none). -/
theorem claim_C2_witness :
    (∃ v, Relation.TransGen (depEdge cyc3Collection) v v) ∧
    ¬ (∃ v, Relation.TransGen (depEdge chain3Collection) v v) :=
  ⟨(claim_C2 cyc3Collection).2.2.mp (by decide),
   fun h => by
    have := (claim_C2 chain3Collection).2.2.mpr h
    revert this
    decide⟩

theorem containsTask_false_find?_none {c : TaskCollection} {i : Int}
    (h : containsTask c i = false) : c.tasks.find? (fun t => t.id == i) = none :=
  List.find?_eq_none.2 (by simpa [containsTask] using List.any_eq_false.1 h)

/-- C7: `add_task` rejects exactly the duplicate-id and missing-dependency
cases; on success the task is appended under its own id and every other
lookup is untouched.  On failure the collection is untouched by
construction: the embedding returns an error and no collection, just as the
Python method raises before any mutation. -/
theorem claim_C7 (c : TaskCollection) (t : Task) :
    ((∃ e, addTask c t = .error e) ↔
      (containsTask c t.id = true ∨ ∃ d ∈ t.dependencies, containsTask c d = false)) ∧
    (∀ c', addTask c t = .ok c' →
      c'.tasks = c.tasks ++ [t] ∧ getTask c' t.id = some t ∧
      ∀ i, i ≠ t.id → getTask c' i = getTask c i) := by
  constructor
  · constructor
    · rintro ⟨e, he⟩
      unfold addTask at he
      by_cases hdup : containsTask c t.id
      · exact Or.inl hdup
      · rw [if_neg (by simp [hdup])] at he
        cases hfind : t.dependencies.find? (fun d => !(containsTask c d)) with
        | none => rw [hfind] at he; cases he
        | some d =>
          refine Or.inr ⟨d, List.mem_of_find?_eq_some hfind, ?_⟩
          have := List.find?_some hfind
          simpa using this
    · intro h
      unfold addTask
      by_cases hdup : containsTask c t.id
      · exact ⟨_, by rw [if_pos hdup]⟩
      · rcases h with h | ⟨d, hd, hdc⟩
        · exact absurd h (by simpa using hdup)
        · have hsome : (t.dependencies.find? (fun d => !(containsTask c d))).isSome :=
            List.find?_isSome.2 ⟨d, hd, by simp [hdc]⟩
          rw [if_neg (by simp [hdup])]
          cases hfind : t.dependencies.find? (fun d => !(containsTask c d)) with
          | none => rw [hfind] at hsome; cases hsome
          | some d' => exact ⟨_, rfl⟩
  · intro c' hok
    unfold addTask at hok
    by_cases hdup : containsTask c t.id
    · rw [if_pos hdup] at hok; cases hok
    · rw [if_neg (by simp [hdup])] at hok
      cases hfind : t.dependencies.find? (fun d => !(containsTask c d)) with
      | some d => rw [hfind] at hok; cases hok
      | none =>
        rw [hfind] at hok
        have hc' : c' = { tasks := c.tasks ++ [t], nextId := max c.nextId (t.id + 1) } := by
          cases hok; rfl
        subst hc'
        have hnone : c.tasks.find? (fun x => x.id == t.id) = none :=
          containsTask_false_find?_none (by simpa using hdup)
        refine ⟨rfl, ?_, ?_⟩
        · show (c.tasks ++ [t]).find? (fun x => x.id == t.id) = some t
          rw [List.find?_append, hnone]
          simp [List.find?]
        · intro i hi
          show (c.tasks ++ [t]).find? (fun x => x.id == i) = getTask c i
          rw [List.find?_append]
          have hba : (t.id == i) = false :=
            beq_eq_false_iff_ne.2 (fun h => hi h.symm)
          have : ([t].find? (fun x => x.id == i)) = none := by
            simp [List.find?, hba]
          rw [this]
          cases hfind2 : c.tasks.find? (fun x => x.id == i) <;> simp [getTask, hfind2]

/-- Witness for C7: on a one-task collection, adding a duplicate id errors,
adding a task with a dangling dependency errors, and adding a well-formed
task succeeds with the collection extended. -/
theorem claim_C7_witness :
    (∃ e, addTask chain3Collection (plainTask 1 []) = .error e) ∧
    (∃ e, addTask chain3Collection (plainTask 4 [9]) = .error e) ∧
    (∀ c', addTask chain3Collection (plainTask 4 [1]) = .ok c' →
      c'.tasks = chain3Collection.tasks ++ [plainTask 4 [1]]) := by
  refine ⟨?_, ?_, ?_⟩
  · exact (claim_C7 chain3Collection (plainTask 1 [])).1.mpr (Or.inl (by decide))
  · exact (claim_C7 chain3Collection (plainTask 4 [9])).1.mpr
      (Or.inr ⟨9, by decide, by decide⟩)
  · intro c' h
    exact ((claim_C7 chain3Collection (plainTask 4 [1])).2 c' h).1

/-- C9: type detection is filename-first.  A filename containing
"deployment" with no setup/project indicator classifies as deployment
whatever the content; a filename with none of the five type substrings and
content with none of the indicator phrases defaults to feature; and whenever
the filename contains any of the five substrings the content is never
consulted. -/
theorem claim_C9 (filename content : String) :
    (strHas (strLower filename) "deployment" = true →
      strHas (strLower filename) "setup" = false →
      strHas (strLower filename) "project" = false →
      detectBriefType filename content = "deployment") ∧
    (strHas (strLower filename) "setup" = false →
      strHas (strLower filename) "project" = false →
      strHas (strLower filename) "deployment" = false →
      strHas (strLower filename) "deploy" = false →
      strHas (strLower filename) "feature" = false →
      (∀ k ∈ setupIndicators, strHas (strLower content) k = false) →
      (∀ k ∈ deploymentIndicators, strHas (strLower content) k = false) →
      detectBriefType filename content = "feature") ∧
    ((strHas (strLower filename) "setup" || strHas (strLower filename) "project"
        || strHas (strLower filename) "deployment" || strHas (strLower filename) "deploy"
        || strHas (strLower filename) "feature") = true →
      ∀ content', detectBriefType filename content = detectBriefType filename content') := by
  refine ⟨?_, ?_, ?_⟩
  · intro hdep hsetup hproj
    unfold detectBriefType
    rw [if_neg (by simp [hsetup, hproj]), if_pos (by simp [hdep])]
  · intro h1 h2 h3 h4 h5 h6 h7
    have ha1 : setupIndicators.any (fun k => strHas (strLower content) k) = false :=
      List.any_eq_false.2 (fun k hk => by simp [h6 k hk])
    have ha2 : deploymentIndicators.any (fun k => strHas (strLower content) k) = false :=
      List.any_eq_false.2 (fun k hk => by simp [h7 k hk])
    unfold detectBriefType
    rw [if_neg (by simp [h1, h2]), if_neg (by simp [h3, h4]),
      if_neg (by simp [h5]), if_neg (by simp [ha1]), if_neg (by simp [ha2])]
  · intro h content'
    unfold detectBriefType
    by_cases hA : (strHas (strLower filename) "setup" || strHas (strLower filename) "project") = true
    · rw [if_pos hA, if_pos hA]
    · rw [if_neg hA, if_neg hA]
      by_cases hB : (strHas (strLower filename) "deployment"
          || strHas (strLower filename) "deploy") = true
      · rw [if_pos hB, if_pos hB]
      · rw [if_neg hB, if_neg hB]
        by_cases hC : strHas (strLower filename) "feature" = true
        · rw [if_pos hC, if_pos hC]
        · exfalso
          simp only [Bool.or_eq_true] at h hA hB
          rcases h with ((((h' | h') | h') | h') | h')
          · exact hA (Or.inl h')
          · exact hA (Or.inr h')
          · exact hB (Or.inl h')
          · exact hB (Or.inr h')
          · exact hC h'

/-- Witness for C9: "deployment_brief.md" with neutral content classifies
as deployment, "notes.md" with neutral content defaults to feature, and for
"my_feature.md" two different contents classify identically. -/
theorem claim_C9_witness :
    detectBriefType "deployment_brief.md" "hello world" = "deployment" ∧
    detectBriefType "notes.md" "hello world" = "feature" ∧
    detectBriefType "my_feature.md" "infrastructure everywhere"
      = detectBriefType "my_feature.md" "nothing" := by
  refine ⟨?_, ?_, ?_⟩
  · exact (claim_C9 "deployment_brief.md" "hello world").1 (by decide) (by decide) (by decide)
  · exact (claim_C9 "notes.md" "hello world").2.1 (by decide) (by decide) (by decide)
      (by decide) (by decide) (by decide) (by decide)
  · exact (claim_C9 "my_feature.md" "infrastructure everywhere").2.2 (by decide) "nothing"

theorem ok_bind {α β : Type} (a : α) (f : α → Except String β) :
    (Except.ok a : Except String α) >>= f = f a := rfl

theorem priorityFromString_value (p : TaskPriority) :
    priorityFromString p.value = .ok p := by cases p <;> rfl

theorem statusFromString_value (s : TaskStatus) :
    statusFromString s.value = .ok s := by cases s <;> rfl

theorem priorityFromString_ok {s : String}
    (h : s = "high" ∨ s = "medium" ∨ s = "low") :
    ∃ p, priorityFromString s = .ok p ∧ p.value = s := by
  rcases h with rfl | rfl | rfl
  · exact ⟨.high, rfl, rfl⟩
  · exact ⟨.medium, rfl, rfl⟩
  · exact ⟨.low, rfl, rfl⟩

theorem statusFromString_ok {s : String}
    (h : s = "to-do" ∨ s = "in-progress" ∨ s = "done") :
    ∃ st, statusFromString s = .ok st ∧ st.value = s := by
  rcases h with rfl | rfl | rfl
  · exact ⟨.todo, rfl, rfl⟩
  · exact ⟨.inProgress, rfl, rfl⟩
  · exact ⟨.done, rfl, rfl⟩

theorem mkTask_ok {id : Int} {title description : String} {priority : TaskPriority}
    {dependencies : List Int} {status : TaskStatus}
    (h1 : strTrim title ≠ "") (h2 : strTrim description ≠ "") (h3 : 0 < id) :
    mkTask id title description priority dependencies status
      = .ok { id := id, title := title, description := description,
              priority := priority, dependencies := dependencies, status := status } := by
  unfold mkTask
  rw [if_neg h1, if_neg h2, if_neg (by omega)]

theorem taskFromDict_ok {td : TaskDict} (h : taskDictValid td) :
    ∃ t, taskFromDict td = .ok t ∧ taskMatchesDict t td := by
  obtain ⟨h1, h2, h3, hp, hs⟩ := h
  obtain ⟨p, hpe, hpv⟩ := priorityFromString_ok hp
  obtain ⟨st, hse, hsv⟩ := statusFromString_ok hs
  refine ⟨{ id := td.id, title := td.title, description := td.description,
            priority := p, dependencies := td.dependencies, status := st }, ?_, ?_⟩
  · have hrw : taskFromDict td = priorityFromString td.priority >>= fun p =>
        statusFromString td.status >>= fun s =>
          mkTask td.id td.title td.description p td.dependencies s := rfl
    rw [hrw, hpe, ok_bind, hse, ok_bind, mkTask_ok h1 h2 h3]
  · exact ⟨rfl, rfl, rfl, hpv, rfl, hsv⟩

theorem taskFromDict_toDict {t : Task} (h : validTask t) :
    taskFromDict t.toDict = .ok t := by
  obtain ⟨h1, h2, h3⟩ := h
  have hrw : taskFromDict t.toDict = priorityFromString t.priority.value >>= fun p =>
      statusFromString t.status.value >>= fun s =>
        mkTask t.id t.title t.description p t.dependencies s := rfl
  rw [hrw, priorityFromString_value, ok_bind, statusFromString_value, ok_bind,
    mkTask_ok h1 h2 h3]

theorem toDict_valid {t : Task} (h : validTask t) : taskDictValid t.toDict := by
  obtain ⟨h1, h2, h3⟩ := h
  obtain ⟨id, title, description, p, deps, st⟩ := t
  refine ⟨h1, h2, h3, ?_, ?_⟩
  · cases p <;> simp [Task.toDict, TaskPriority.value]
  · cases st <;> simp [Task.toDict, TaskStatus.value]

theorem putTask_mem {l : List Task} {t x : Task} (h : x ∈ putTask l t) :
    x ∈ l ∨ x = t := by
  induction l with
  | nil =>
    simp only [putTask] at h
    exact Or.inr (List.mem_singleton.1 h)
  | cons t' rest ih =>
    simp only [putTask] at h
    by_cases hid : (t'.id == t.id) = true
    · rw [if_pos hid] at h
      rcases List.mem_cons.1 h with rfl | h'
      · exact Or.inr rfl
      · exact Or.inl (List.mem_cons_of_mem t' h')
    · rw [if_neg hid] at h
      rcases List.mem_cons.1 h with rfl | h'
      · exact Or.inl (List.mem_cons_self x rest)
      · rcases ih h' with h'' | h''
        · exact Or.inl (List.mem_cons_of_mem t' h'')
        · exact Or.inr h''

theorem putTask_append {l : List Task} {t : Task} (h : ∀ x ∈ l, x.id ≠ t.id) :
    putTask l t = l ++ [t] := by
  induction l with
  | nil => rfl
  | cons t' rest ih =>
    have hne : (t'.id == t.id) = false :=
      beq_eq_false_iff_ne.2 (h t' (List.mem_cons_self t' rest))
    simp only [putTask, hne]
    rw [if_neg (by simp)]
    rw [ih (fun x hx => h x (List.mem_cons_of_mem t' hx))]
    rfl

theorem le_foldl_max : ∀ (tds : List TaskDict) (a : Int),
    a ≤ tds.foldl (fun n td => max n (td.id + 1)) a := by
  intro tds
  induction tds with
  | nil => intro a; exact le_refl a
  | cons td tds ih =>
    intro a
    exact le_trans (le_max_left a (td.id + 1)) (ih (max a (td.id + 1)))

theorem foldl_max_le : ∀ (tds : List TaskDict) (a B : Int), a ≤ B →
    (∀ td ∈ tds, td.id + 1 ≤ B) →
    tds.foldl (fun n td => max n (td.id + 1)) a ≤ B := by
  intro tds
  induction tds with
  | nil => intro a B h _; exact h
  | cons td tds ih =>
    intro a B h hall
    exact ih _ B (max_le h (hall td (List.mem_cons_self td tds)))
      (fun td' h' => hall td' (List.mem_cons_of_mem td h'))

theorem mem_le_foldl_max : ∀ (tds : List TaskDict) (a : Int) (td : TaskDict),
    td ∈ tds → td.id + 1 ≤ tds.foldl (fun n td => max n (td.id + 1)) a := by
  intro tds
  induction tds with
  | nil => intro a td h; cases h
  | cons td' tds ih =>
    intro a td h
    rcases List.mem_cons.1 h with rfl | h'
    · exact le_trans (le_max_right a (td.id + 1)) (le_foldl_max tds _)
    · exact ih _ td h'

/-- Master lemma for the `from_tasks_json` loop: with field-valid task
objects the fold succeeds; `_next_id` is the running maximum of id+1; every
loaded task comes from the accumulator or matches some dict; the
ids-below-next invariant is preserved; and with fresh, duplicate-free ids
the tasks are appended in document order. -/
theorem foldLoad_ok : ∀ (tds : List TaskDict) (c₀ : TaskCollection),
    (∀ td ∈ tds, taskDictValid td) →
    ∃ c, tds.foldlM loadTaskStep c₀ = .ok c ∧
      c.nextId = tds.foldl (fun n td => max n (td.id + 1)) c₀.nextId ∧
      (∀ t ∈ c.tasks, t ∈ c₀.tasks ∨ ∃ td ∈ tds, taskMatchesDict t td) ∧
      ((∀ t ∈ c₀.tasks, t.id < c₀.nextId) → ∀ t ∈ c.tasks, t.id < c.nextId) ∧
      ((∀ td ∈ tds, ∀ x ∈ c₀.tasks, x.id ≠ td.id) →
        (tds.map (fun td => td.id)).Nodup →
        ∃ ts, c.tasks = c₀.tasks ++ ts ∧ List.Forall₂ taskMatchesDict ts tds) := by
  intro tds
  induction tds with
  | nil =>
    intro c₀ _
    exact ⟨c₀, rfl, rfl, fun t ht => Or.inl ht, fun h => h,
      fun _ _ => ⟨[], (List.append_nil _).symm, List.Forall₂.nil⟩⟩
  | cons td tds ih =>
    intro c₀ hvalid
    obtain ⟨t, hte, htm⟩ := taskFromDict_ok (hvalid td (List.mem_cons_self td tds))
    have hstep : loadTaskStep c₀ td
        = .ok { tasks := putTask c₀.tasks t, nextId := max c₀.nextId (t.id + 1) } := by
      have hrw : loadTaskStep c₀ td = taskFromDict td >>= fun t =>
          .ok { tasks := putTask c₀.tasks t, nextId := max c₀.nextId (t.id + 1) } := rfl
      rw [hrw, hte, ok_bind]
    set c₁ : TaskCollection :=
      { tasks := putTask c₀.tasks t, nextId := max c₀.nextId (t.id + 1) } with hc₁
    obtain ⟨c, hc, hnext, hmem, hbound, hend⟩ :=
      ih c₁ (fun td' h' => hvalid td' (List.mem_cons_of_mem td h'))
    have hidc : t.id = td.id := htm.1
    refine ⟨c, ?_, ?_, ?_, ?_, ?_⟩
    · rw [List.foldlM_cons, hstep, ok_bind]
      exact hc
    · rw [List.foldl_cons, hnext, hc₁]
      simp only [hidc]
    · intro x hx
      rcases hmem x hx with hx' | ⟨td', h1, h2⟩
      · rcases putTask_mem hx' with h'' | rfl
        · exact Or.inl h''
        · exact Or.inr ⟨td, List.mem_cons_self td tds, htm⟩
      · exact Or.inr ⟨td', List.mem_cons_of_mem td h1, h2⟩
    · intro hb
      refine hbound ?_
      intro x hx
      rcases putTask_mem hx with h'' | rfl
      · exact lt_of_lt_of_le (hb x h'') (le_max_left _ _)
      · exact lt_of_lt_of_le (by omega) (le_max_right c₀.nextId (x.id + 1))
    · intro hfresh hnodup
      obtain ⟨hhead, htail⟩ := List.nodup_cons.1 hnodup
      have happ : putTask c₀.tasks t = c₀.tasks ++ [t] :=
        putTask_append (fun x hx => by
          rw [hidc]
          exact hfresh td (List.mem_cons_self td tds) x hx)
      have hfresh' : ∀ td' ∈ tds, ∀ x ∈ c₁.tasks, x.id ≠ td'.id := by
        intro td' h' x hx
        rw [hc₁] at hx
        simp only [happ] at hx
        rcases List.mem_append.1 hx with hx' | hx'
        · exact hfresh td' (List.mem_cons_of_mem td h') x hx'
        · have : x = t := List.mem_singleton.1 hx'
          subst this
          rw [hidc]
          intro hEq
          refine hhead ?_
          show td.id ∈ List.map (fun td => td.id) tds
          rw [hEq]
          exact List.mem_map.2 ⟨td', h', rfl⟩
      obtain ⟨ts, hts, hfa⟩ := hend hfresh' htail
      refine ⟨t :: ts, ?_, List.Forall₂.cons htm hfa⟩
      rw [hts, hc₁]
      simp only [happ]
      rw [List.append_assoc]
      rfl

theorem fromTasksJson_of_fold {d : TasksDocument} {c : TaskCollection}
    (hc : d.tasks.foldlM loadTaskStep TaskCollection.empty = .ok c) :
    fromTasksJson d = .ok (c, metaFromDict d.metadata) := by
  have hrw : fromTasksJson d = d.tasks.foldlM loadTaskStep TaskCollection.empty
      >>= fun collection => .ok (collection, metaFromDict d.metadata) := rfl
  rw [hrw, hc, ok_bind]

/-- C10: `from_tasks_json` bypasses the insertion-time invariants: any
document whose task objects are field-valid loads without error, tasks kept
exactly as given (ids, dependency lists, order) — no check that dependency
ids exist, precede their dependents, or differ from the task's own id.
Dependency problems surface only if `validate_dependencies` is called on
the result. -/
theorem claim_C10 (d : TasksDocument)
    (hvalid : ∀ td ∈ d.tasks, taskDictValid td)
    (hnodup : (d.tasks.map (fun td => td.id)).Nodup) :
    ∃ c m, fromTasksJson d = .ok (c, m) ∧
      List.Forall₂ taskMatchesDict c.tasks d.tasks := by
  obtain ⟨c, hc, _, _, _, hend⟩ := foldLoad_ok d.tasks TaskCollection.empty hvalid
  obtain ⟨ts, hts, hfa⟩ := hend (fun td _ x hx => absurd hx (List.not_mem_nil x)) hnodup
  refine ⟨c, metaFromDict d.metadata, fromTasksJson_of_fold hc, ?_⟩
  have hts' : c.tasks = ts := by rw [hts]; rfl
  rw [hts']
  exact hfa

/-- Witness for C10 at a document `add_task` would reject three times over:
it still loads, task list exactly as stored. -/
theorem claim_C10_witness :
    ∃ c m, fromTasksJson c10ExampleDoc = .ok (c, m) ∧
      List.Forall₂ taskMatchesDict c.tasks c10ExampleDoc.tasks :=
  claim_C10 c10ExampleDoc (by decide) (by decide)

theorem foldLoad_exact : ∀ (orig : List Task) (c₀ : TaskCollection),
    (∀ t ∈ orig, validTask t) →
    (∀ t ∈ orig, ∀ x ∈ c₀.tasks, x.id ≠ t.id) →
    ((orig.map (fun t => t.id)).Nodup) →
    ∃ c, (orig.map Task.toDict).foldlM loadTaskStep c₀ = .ok c ∧
      c.tasks = c₀.tasks ++ orig := by
  intro orig
  induction orig with
  | nil =>
    intro c₀ _ _ _
    exact ⟨c₀, rfl, by simp⟩
  | cons t ts ih =>
    intro c₀ hvalid hfresh hnodup
    obtain ⟨hhead, htail⟩ := List.nodup_cons.1 hnodup
    have hstep : loadTaskStep c₀ t.toDict
        = .ok { tasks := putTask c₀.tasks t, nextId := max c₀.nextId (t.id + 1) } := by
      have hrw : loadTaskStep c₀ t.toDict = taskFromDict t.toDict >>= fun t' =>
          .ok { tasks := putTask c₀.tasks t', nextId := max c₀.nextId (t'.id + 1) } := rfl
      rw [hrw, taskFromDict_toDict (hvalid t (List.mem_cons_self t ts)), ok_bind]
    have happ : putTask c₀.tasks t = c₀.tasks ++ [t] :=
      putTask_append (fun x hx => hfresh t (List.mem_cons_self t ts) x hx)
    set c₁ : TaskCollection :=
      { tasks := putTask c₀.tasks t, nextId := max c₀.nextId (t.id + 1) } with hc₁
    have hfresh' : ∀ t' ∈ ts, ∀ x ∈ c₁.tasks, x.id ≠ t'.id := by
      intro t' h' x hx
      rw [hc₁] at hx
      simp only [happ] at hx
      rcases List.mem_append.1 hx with hx' | hx'
      · exact hfresh t' (List.mem_cons_of_mem t h') x hx'
      · have : x = t := List.mem_singleton.1 hx'
        subst this
        intro hEq
        refine hhead ?_
        show x.id ∈ List.map (fun t => t.id) ts
        rw [hEq]
        exact List.mem_map.2 ⟨t', h', rfl⟩
    obtain ⟨c, hc, hts⟩ := ih c₁ (fun t' h' => hvalid t' (List.mem_cons_of_mem t h'))
      hfresh' htail
    refine ⟨c, ?_, ?_⟩
    · rw [List.map_cons, List.foldlM_cons, hstep, ok_bind]
      exact hc
    · rw [hts, hc₁]
      simp only [happ]
      rw [List.append_assoc]
      rfl

theorem find?_eq_of_perm {l₁ l₂ : List Task} (hperm : l₁.Perm l₂)
    (hnodup : (l₂.map (fun t => t.id)).Nodup) (i : Int) :
    l₁.find? (fun t => t.id == i) = l₂.find? (fun t => t.id == i) := by
  cases hfind : l₂.find? (fun t => t.id == i) with
  | none =>
    refine List.find?_eq_none.2 ?_
    intro x hx
    exact List.find?_eq_none.1 hfind x (hperm.mem_iff.1 hx)
  | some t =>
    have ht2 : t ∈ l₂ := List.mem_of_find?_eq_some hfind
    have h2 : t.id = i := by
      have := List.find?_some hfind
      simpa using this
    have hsome : (l₁.find? (fun t => t.id == i)).isSome :=
      List.find?_isSome.2 ⟨t, hperm.mem_iff.2 ht2, by simp [h2]⟩
    cases hfind1 : l₁.find? (fun t => t.id == i) with
    | none => rw [hfind1] at hsome; cases hsome
    | some t' =>
      have ht1 : t' ∈ l₂ := hperm.mem_iff.1 (List.mem_of_find?_eq_some hfind1)
      have h1 : t'.id = i := by
        have := List.find?_some hfind1
        simpa using this
      have hid : t'.id = t.id := by rw [h1, h2]
      rw [List.inj_on_of_nodup_map hnodup ht1 ht2 hid]

/-- C4: serializing a collection with `to_tasks_json` and loading the result
with `from_tasks_json` reconstructs a collection whose lookup at every id
yields the same task (same title, description, priority, dependencies and
status), together with a metadata record carrying the same description. -/
theorem claim_C4 (c : TaskCollection) (m : ProjectMetadata)
    (hvalid : ∀ t ∈ c.tasks, validTask t)
    (hnodup : (c.tasks.map (fun t => t.id)).Nodup) :
    ∃ c₂ m₂, fromTasksJson (toTasksJson c m) = .ok (c₂, m₂) ∧
      (∀ i, getTask c₂ i = getTask c i) ∧ m₂.description = m.description := by
  have hperm : (getAllTasks c).Perm c.tasks := List.perm_insertionSort _ _
  have hpermid : ((getAllTasks c).map (fun t => t.id)).Perm
      (c.tasks.map (fun t => t.id)) := hperm.map _
  have hnodup' : ((getAllTasks c).map (fun t => t.id)).Nodup :=
    hpermid.nodup_iff.2 hnodup
  obtain ⟨c₂, hc₂, hts⟩ := foldLoad_exact (getAllTasks c) TaskCollection.empty
    (fun t ht => hvalid t (hperm.mem_iff.1 ht))
    (fun t _ x hx => absurd hx (List.not_mem_nil x)) hnodup'
  have hts' : c₂.tasks = getAllTasks c := by rw [hts]; rfl
  refine ⟨c₂, metaFromDict (toTasksJson c m).metadata, fromTasksJson_of_fold hc₂, ?_, rfl⟩
  intro i
  show c₂.tasks.find? (fun t => t.id == i) = c.tasks.find? (fun t => t.id == i)
  rw [hts']
  exact find?_eq_of_perm hperm hnodup i

/-- Witness for C4 at a concrete three-task collection. -/
theorem claim_C4_witness :
    ∃ c₂ m₂, fromTasksJson (toTasksJson chain3Collection
        { name := "P", description := "demo project", created := "c", updated := "u",
          totalTasks := 3, completedTasks := 0 }) = .ok (c₂, m₂) ∧
      (∀ i, getTask c₂ i = getTask chain3Collection i) ∧
      m₂.description = "demo project" :=
  claim_C4 chain3Collection
    { name := "P", description := "demo project", created := "c", updated := "u",
      totalTasks := 3, completedTasks := 0 } (by decide) (by decide)

theorem assignTaskIds_nil {mgr : TaskIDManager} {c : TaskCollection}
    (hex : mgr.existingCollection = some c) : assignTaskIds mgr [] = .ok c := by
  simp only [assignTaskIds, hex]
  rfl

/-- C5: loading a previously generated document and re-running
`assign_task_ids` with zero briefs returns exactly the loaded collection —
the very object the manager holds — whose tasks coincide field-by-field
with the ones stored in the document, in order, with no id shifted. -/
theorem claim_C5 (d : TasksDocument)
    (hvalid : ∀ td ∈ d.tasks, taskDictValid td)
    (hnodup : (d.tasks.map (fun td => td.id)).Nodup) :
    ∃ mgr c, loadExisting d = .ok mgr ∧ mgr.existingCollection = some c ∧
      assignTaskIds mgr [] = .ok c ∧
      List.Forall₂ taskMatchesDict c.tasks d.tasks := by
  obtain ⟨c, hc, _, _, _, hend⟩ := foldLoad_ok d.tasks TaskCollection.empty hvalid
  obtain ⟨ts, hts, hfa⟩ := hend (fun td _ x hx => absurd hx (List.not_mem_nil x)) hnodup
  have hts' : c.tasks = ts := by rw [hts]; rfl
  have hfrom : fromTasksJson d = .ok (c, metaFromDict d.metadata) :=
    fromTasksJson_of_fold hc
  have hrw : loadExisting d = fromTasksJson d >>= fun cm =>
      if (getAllTasks cm.1).isEmpty then
        .ok { existingCollection := some cm.1, existingMetadata := some cm.2,
              nextAvailableId := 1, reservedIds := [] }
      else
        .ok { existingCollection := some cm.1, existingMetadata := some cm.2,
              nextAvailableId := (((getAllTasks cm.1).map (fun t => t.id)).foldl max 0) + 1,
              reservedIds := (getAllTasks cm.1).map (fun t => t.id) } := rfl
  rw [hfrom, ok_bind] at hrw
  by_cases hemp : (getAllTasks c).isEmpty = true
  · rw [if_pos hemp] at hrw
    refine ⟨_, c, hrw, rfl, assignTaskIds_nil rfl, ?_⟩
    rw [hts']
    exact hfa
  · rw [if_neg hemp] at hrw
    refine ⟨_, c, hrw, rfl, assignTaskIds_nil rfl, ?_⟩
    rw [hts']
    exact hfa

/-- Witness for C5 at the concrete document of C10's shape but with clean
dependencies. -/
theorem claim_C5_witness :
    ∃ mgr c, loadExisting
        { tasks := [{ id := 1, title := "A", description := "a", priority := "high",
                      dependencies := [], status := "done" },
                    { id := 2, title := "B", description := "b", priority := "low",
                      dependencies := [1], status := "to-do" }],
          metadata := { created := "c", updated := "u", description := "d" } } = .ok mgr ∧
      mgr.existingCollection = some c ∧ assignTaskIds mgr [] = .ok c ∧
      List.Forall₂ taskMatchesDict c.tasks
        [{ id := 1, title := "A", description := "a", priority := "high",
           dependencies := [], status := "done" },
         { id := 2, title := "B", description := "b", priority := "low",
           dependencies := [1], status := "to-do" }] :=
  claim_C5 _ (by decide) (by decide)

theorem error_bind {α β : Type} (e : String) (f : α → Except String β) :
    (Except.error e : Except String α) >>= f = .error e := rfl

theorem mapM_first_error {parse : String → Except String BriefContent}
    {f e : String} (rest : List String) (hf : parse f = .error e) :
    ∀ (pre : List String), (∀ p ∈ pre, ∃ b, parse p = .ok b) →
      (pre ++ f :: rest).mapM parse = .error e := by
  intro pre
  induction pre with
  | nil =>
    intro _
    rw [List.nil_append, List.mapM_cons, hf, error_bind]
  | cons p pre ih =>
    intro hok
    obtain ⟨b, hb⟩ := hok p (List.mem_cons_self p pre)
    rw [List.cons_append, List.mapM_cons, hb, ok_bind,
      ih (fun q hq => hok q (List.mem_cons_of_mem p hq)), error_bind]

/-- C8: the orchestrator re-raises the first per-file parse failure, so a
partially parsed batch never produces a collection; when every file parses
and id assignment succeeds, the run returns the collection with the
high-confidence suggestions applied at threshold 0.7 — the subsequent
`validate_dependencies` call is computed but its errors are only logged and
can never fail the run (no hypothesis about them is needed). -/
theorem claim_C8 :
    (∀ (parse : String → Except String BriefContent) (m : TaskIDManager)
        (pre : List String) (f : String) (rest : List String) (e : String),
      (∀ p ∈ pre, ∃ b, parse p = .ok b) → parse f = .error e →
      processBriefFiles parse m (pre ++ f :: rest) = .error e) ∧
    (∀ (parse : String → Except String BriefContent) (m : TaskIDManager)
        (files : List String) (bs : List BriefContent) (col : TaskCollection),
      files.mapM parse = .ok bs → assignTaskIds m bs = .ok col →
      processBriefFiles parse m files
        = .ok (applyDependencies col
            (analyzeDependencies bs col).suggestedDependencies (mkRat 7 10)).1) := by
  have hrw : ∀ (parse : String → Except String BriefContent) (m : TaskIDManager)
      (files : List String),
      processBriefFiles parse m files = files.mapM parse >>= fun briefs =>
        assignTaskIds m briefs >>= fun col =>
          .ok (applyDependencies col
            (analyzeDependencies briefs col).suggestedDependencies (mkRat 7 10)).1 :=
    fun _ _ _ => rfl
  constructor
  · intro parse m pre f rest e hok hf
    rw [hrw, mapM_first_error rest hf pre hok, error_bind]
  · intro parse m files bs col hmap hassign
    rw [hrw, hmap, ok_bind, hassign, ok_bind]

/-- Witness for C8: with "bad.md" in the batch the whole run fails with the
parse error; with only "ok.md" the run succeeds and returns the
suggestion-applied collection. -/
theorem claim_C8_witness :
    processBriefFiles c8Oracle freshManager ["ok.md", "bad.md"]
      = .error "Failed to parse brief file bad.md" ∧
    ∃ col, assignTaskIds freshManager [c8Brief] = .ok col ∧
      processBriefFiles c8Oracle freshManager ["ok.md"]
        = .ok (applyDependencies col
            (analyzeDependencies [c8Brief] col).suggestedDependencies (mkRat 7 10)).1 := by
  constructor
  · refine claim_C8.1 c8Oracle freshManager ["ok.md"] "bad.md" [] _ ?_ rfl
    intro p hp
    have : p = "ok.md" := List.mem_singleton.1 hp
    subst this
    exact ⟨c8Brief, rfl⟩
  · exact ⟨_, rfl, claim_C8.2 c8Oracle freshManager ["ok.md"] [c8Brief] _ rfl rfl⟩

/-- C6 counterexample: in the suggestion graph 4→1, 1→2, 2→1, node 1 lies
on a cycle, yet the only warning emitted names node 4 — the DFS root from
which the cycle was first reached — so no warning names node 1 itself. -/
theorem claim_C6_counterexample :
    Relation.TransGen (suggEdge c6Deps) 1 1 ∧
    detectCircularDependencies c6Deps = [circularRootMsg 4] ∧
    circularRootMsg 1 ∉ detectCircularDependencies c6Deps := by
  refine ⟨?_, rfl, ?_⟩
  · exact Relation.TransGen.head
      ⟨c6Edge 1 2, List.mem_cons_of_mem _ (List.mem_cons_self _ _), rfl, rfl⟩
      (Relation.TransGen.single
        ⟨c6Edge 2 1,
         List.mem_cons_of_mem _ (List.mem_cons_of_mem _ (List.mem_cons_self _ _)),
         rfl, rfl⟩)
  · intro h
    have h2 : circularRootMsg 1 ∈ [circularRootMsg 4] := h
    exact absurd (List.mem_singleton.1 h2) (by decide)

/-- C6 (amended): the mapper's cycle detection warns per DFS root, not per
cycle-implicated node: it emits at least one warning exactly when the
suggested-edge graph has a directed cycle, and every warning names a node
from which a cycle is reachable — but a node lying on a cycle need not be
named in any warning. -/
theorem claim_C6 (deps : List DependencyRelationship) :
    (detectCircularDependencies deps ≠ [] ↔
      ∃ w, Relation.TransGen (suggEdge deps) w w) ∧
    (∀ s ∈ detectCircularDependencies deps, ∃ n, s = circularRootMsg n ∧
      ∃ w, Relation.ReflTransGen (suggEdge deps) n w ∧
        Relation.TransGen (suggEdge deps) w w) :=
  ⟨detectCircular_ne_nil_iff deps, detectCircular_sound deps⟩

theorem idRange_succ (s : Int) (k : Nat) :
    idRange s (k + 1) = s :: idRange (s + 1) k := by
  unfold idRange
  rw [List.range_succ_eq_map, List.map_cons, List.map_map]
  refine congrArg₂ List.cons (by simp) ?_
  refine List.map_congr_left ?_
  intro j _
  simp only [Function.comp]
  push_cast
  ring

theorem getLastD_mem : ∀ (l : List Int), l ≠ [] → ∀ d, l.getLastD d ∈ l := by
  intro l
  induction l with
  | nil => intro h; exact absurd rfl h
  | cons x rest ih =>
    intro _ d
    rw [List.getLastD_cons]
    cases rest with
    | nil => exact List.mem_singleton.2 rfl
    | cons y rest' =>
      exact List.mem_cons_of_mem x (ih (by simp) x)

theorem determineTaskDeps_sub {idx : Nat} {gen briefDeps : List Int} {i : Int}
    (hi : i ∈ determineTaskDeps idx gen briefDeps) : i ∈ briefDeps ∨ i ∈ gen := by
  unfold determineTaskDeps at hi
  rcases List.mem_append.1 hi with h | h
  · by_cases hc : (idx == 0 && !briefDeps.isEmpty) = true
    · rw [if_pos hc] at h
      exact Or.inl h
    · rw [if_neg hc] at h
      cases h
  · by_cases hc : (!gen.isEmpty && idx > 0) = true
    · rw [if_pos hc] at h
      have hne : gen ≠ [] := by
        rw [Bool.and_eq_true] at hc
        obtain ⟨h1, _⟩ := hc
        intro hnil
        rw [hnil] at h1
        exact absurd h1 (by decide)
      rcases List.mem_singleton.1 h with rfl
      exact Or.inr (getLastD_mem gen hne 0)
    · rw [if_neg hc] at h
      cases h

theorem containsTask_of_mem {c : TaskCollection} {t : Task} (h : t ∈ c.tasks) :
    containsTask c t.id = true :=
  List.any_eq_true.2 ⟨t, h, beq_self_eq_true t.id⟩

theorem foldl_maxBy_mem : ∀ (rest : List Task) (x : Task),
    rest.foldl (fun best t => if t.id > best.id then t else best) x ∈ x :: rest := by
  intro rest
  induction rest with
  | nil => intro x; exact List.mem_singleton.2 rfl
  | cons y rest ih =>
    intro x
    rw [List.foldl_cons]
    by_cases hc : y.id > x.id
    · rw [if_pos hc]
      exact List.mem_cons_of_mem x (ih y)
    · rw [if_neg hc]
      rcases List.mem_cons.1 (ih x) with h | h
      · rw [h]; exact List.mem_cons_self x _
      · exact List.mem_cons_of_mem x (List.mem_cons_of_mem y h)

theorem maxByIdFirst_mem {l : List Task} {t : Task} (h : maxByIdFirst l = some t) :
    t ∈ l := by
  cases l with
  | nil => cases h
  | cons x rest =>
    have h' : (rest.foldl (fun best t => if t.id > best.id then t else best) x) = t :=
      Option.some.inj h
    rw [← h']
    exact foldl_maxBy_mem rest x

theorem mem_getAllTasks {c : TaskCollection} {t : Task} :
    t ∈ getAllTasks c ↔ t ∈ c.tasks :=
  (List.perm_insertionSort _ _).mem_iff

theorem resolveBriefDeps_contains (b : BriefContent)
    (briefDeps : List (String × List String)) (c : TaskCollection) :
    ∀ i ∈ resolveBriefDeps b briefDeps c, containsTask c i = true := by
  have key : ∀ (ds : List String) (acc : List Int),
      (∀ i ∈ acc, containsTask c i = true) →
      ∀ i ∈ ds.foldl (fun acc depBriefType =>
          match maxByIdFirst ((getAllTasks c).filter
              (fun t => taskLikelyFromBriefType t depBriefType)) with
          | some t => acc ++ [t.id]
          | none => acc) acc,
        containsTask c i = true := by
    intro ds
    induction ds with
    | nil => intro acc hacc i hi; exact hacc i hi
    | cons d ds ih =>
      intro acc hacc i hi
      rw [List.foldl_cons] at hi
      refine ih _ ?_ i hi
      intro j hj
      cases hmax : maxByIdFirst ((getAllTasks c).filter
          (fun t => taskLikelyFromBriefType t d)) with
      | none => rw [hmax] at hj; exact hacc j hj
      | some t =>
        rw [hmax] at hj
        rcases List.mem_append.1 hj with h | h
        · exact hacc j h
        · rcases List.mem_singleton.1 h with rfl
          have htm : t ∈ c.tasks :=
            mem_getAllTasks.1 (List.mem_filter.1 (maxByIdFirst_mem hmax)).1
          exact containsTask_of_mem htm
  intro i hi
  exact key _ [] (fun j hj => absurd hj (List.not_mem_nil j)) i hi

theorem containsTask_append {c₁ c : TaskCollection} {t : Task}
    (hts : c₁.tasks = c.tasks ++ [t]) (i : Int) :
    containsTask c₁ i = (containsTask c i || (t.id == i)) := by
  unfold containsTask
  rw [hts, List.any_append]
  simp

/-- `create_task` under the insertion-time invariants: the new task carries
`_next_id` with status TODO, is appended, and `_next_id` advances by one. -/
theorem createTask_ok (c : TaskCollection) (title description : String)
    (priority : TaskPriority) (deps : List Int)
    (ht : ¬ strTrim title = "") (hd : ¬ strTrim description = "")
    (hpos : 0 < c.nextId)
    (hids : ∀ x ∈ c.tasks, x.id < c.nextId)
    (hdeps : ∀ i ∈ deps, containsTask c i = true) :
    ∃ t c', createTask c title description priority deps = .ok (c', t) ∧
      c'.tasks = c.tasks ++ [t] ∧ c'.nextId = c.nextId + 1 ∧ t.id = c.nextId ∧
      t.title = title ∧ t.description = description ∧ t.priority = priority ∧
      t.dependencies = deps ∧ t.status = .todo := by
  have hfind : deps.find? (fun d => !(containsTask c d)) = none := by
    refine List.find?_eq_none.2 ?_
    intro d hd'
    simp [hdeps d hd']
  have hcont : containsTask c c.nextId = false := by
    cases hcase : containsTask c c.nextId with
    | false => rfl
    | true =>
      exfalso
      obtain ⟨x, hx, hx2⟩ := List.any_eq_true.1 hcase
      have h1 := hids x hx
      have h2 := eq_of_beq hx2
      omega
  have hadd : addTask c
      { id := c.nextId, title := title, description := description,
        priority := priority, dependencies := deps, status := .todo }
      = .ok { tasks := c.tasks ++
                [{ id := c.nextId, title := title, description := description,
                   priority := priority, dependencies := deps, status := .todo }],
              nextId := c.nextId + 1 } := by
    simp only [addTask, hcont, hfind, Bool.false_eq_true, if_false]
    rw [max_eq_right (by omega : c.nextId ≤ c.nextId + 1)]
  refine
    ⟨{ id := c.nextId, title := title, description := description,
       priority := priority, dependencies := deps, status := .todo },
     { tasks := c.tasks ++
         [{ id := c.nextId, title := title, description := description,
            priority := priority, dependencies := deps, status := .todo }],
       nextId := c.nextId + 1 },
     ?_, rfl, rfl, rfl, rfl, rfl, rfl, rfl, rfl⟩
  have hrw : createTask c title description priority deps
      = mkTask c.nextId title description priority deps .todo >>= fun t =>
        addTask c t >>= fun c' => .ok (c', t) := rfl
  rw [hrw, mkTask_ok ht hd hpos, ok_bind]
  show addTask c
      { id := c.nextId, title := title, description := description,
        priority := priority, dependencies := deps, status := .todo } >>= (fun c' =>
        Except.ok
          (c',
           ({ id := c.nextId, title := title, description := description,
              priority := priority, dependencies := deps,
              status := .todo } : Task))) = _
  rw [hadd, ok_bind]

theorem genLoop_cons_ne {basePriority : TaskPriority} {briefDeps : List Int}
    {raw : String} (rest : List String) (idx : Nat) (c : TaskCollection)
    (gen : List Int) (hblank : ¬ strTrim raw = "") :
    genLoop basePriority briefDeps (raw :: rest) idx c gen
      = createTask c (parseTaskDescription raw).1 (parseTaskDescription raw).2
          (determineTaskPriority (parseTaskDescription raw).1
            (parseTaskDescription raw).2 basePriority)
          (determineTaskDeps idx gen briefDeps) >>= fun ct =>
        genLoop basePriority briefDeps rest (idx + 1) ct.1 (gen ++ [ct.2.id]) := by
  have h1 : genLoop basePriority briefDeps (raw :: rest) idx c gen
      = if strTrim raw = "" then genLoop basePriority briefDeps rest (idx + 1) c gen
        else createTask c (parseTaskDescription raw).1 (parseTaskDescription raw).2
              (determineTaskPriority (parseTaskDescription raw).1
                (parseTaskDescription raw).2 basePriority)
              (determineTaskDeps idx gen briefDeps) >>= fun ct =>
            genLoop basePriority briefDeps rest (idx + 1) ct.1 (gen ++ [ct.2.id]) := rfl
  rw [h1, if_neg hblank]

/-- Master lemma for the per-brief generation loop: under clean inputs it
succeeds, appends one task per non-blank raw string, and hands out the
consecutive ids `_next_id, _next_id+1, ...` in list order. -/
theorem genLoop_ok (basePriority : TaskPriority) (briefDeps : List Int) :
    ∀ (raws : List String) (idx : Nat) (c : TaskCollection) (gen : List Int),
    (∀ raw ∈ raws, ¬ strTrim raw = "" →
      ¬ strTrim (parseTaskDescription raw).1 = "" ∧
      ¬ strTrim (parseTaskDescription raw).2 = "") →
    0 < c.nextId →
    (∀ x ∈ c.tasks, x.id < c.nextId) →
    (∀ i ∈ briefDeps, containsTask c i = true) →
    (∀ i ∈ gen, containsTask c i = true) →
    ∃ c' gen' newTasks,
      genLoop basePriority briefDeps raws idx c gen = .ok (c', gen') ∧
      c'.tasks = c.tasks ++ newTasks ∧
      newTasks.map (fun t => t.id) = idRange c.nextId (countNonBlank raws) ∧
      c'.nextId = c.nextId + countNonBlank raws := by
  intro raws
  induction raws with
  | nil =>
    intro idx c gen _ _ _ _ _
    exact ⟨c, gen, [], rfl, (List.append_nil _).symm, rfl,
      by simp [countNonBlank]⟩
  | cons raw rest ih =>
    intro idx c gen hclean hpos hbound hbrief hgen
    by_cases hblank : strTrim raw = ""
    · have heq : genLoop basePriority briefDeps (raw :: rest) idx c gen
          = genLoop basePriority briefDeps rest (idx + 1) c gen := by
        have h1 : genLoop basePriority briefDeps (raw :: rest) idx c gen
            = if strTrim raw = ""
              then genLoop basePriority briefDeps rest (idx + 1) c gen
              else createTask c (parseTaskDescription raw).1
                    (parseTaskDescription raw).2
                    (determineTaskPriority (parseTaskDescription raw).1
                      (parseTaskDescription raw).2 basePriority)
                    (determineTaskDeps idx gen briefDeps) >>= fun ct =>
                  genLoop basePriority briefDeps rest (idx + 1) ct.1
                    (gen ++ [ct.2.id]) := rfl
        rw [h1, if_pos hblank]
      obtain ⟨c', gen', newTasks, h1, h2, h3, h4⟩ :=
        ih (idx + 1) c gen (fun r hr => hclean r (List.mem_cons_of_mem raw hr))
          hpos hbound hbrief hgen
      have hcnt : countNonBlank (raw :: rest) = countNonBlank rest := by
        simp [countNonBlank, List.filter_cons, hblank]
      refine ⟨c', gen', newTasks, ?_, h2, ?_, ?_⟩
      · rw [heq]; exact h1
      · rw [hcnt]; exact h3
      · rw [hcnt]; exact h4
    · obtain ⟨hT, hD⟩ := hclean raw (List.mem_cons_self raw rest) hblank
      have hdeps₂ : ∀ i ∈ determineTaskDeps idx gen briefDeps,
          containsTask c i = true := by
        intro i hi
        rcases determineTaskDeps_sub hi with h | h
        · exact hbrief i h
        · exact hgen i h
      obtain ⟨t₁, c₁, hcreate, htasks₁, hnext₁, hid₁, _, _, _, _, _⟩ :=
        createTask_ok c (parseTaskDescription raw).1 (parseTaskDescription raw).2
          (determineTaskPriority (parseTaskDescription raw).1
            (parseTaskDescription raw).2 basePriority)
          (determineTaskDeps idx gen briefDeps) hT hD hpos hbound hdeps₂
      have heq : genLoop basePriority briefDeps (raw :: rest) idx c gen
          = genLoop basePriority briefDeps rest (idx + 1) c₁ (gen ++ [t₁.id]) := by
        rw [genLoop_cons_ne rest idx c gen hblank, hcreate]
        rfl
      obtain ⟨c', gen', newTasks', h1, h2, h3, h4⟩ :=
        ih (idx + 1) c₁ (gen ++ [t₁.id])
          (fun r hr => hclean r (List.mem_cons_of_mem raw hr))
          (by rw [hnext₁]; omega)
          (by
            intro x hx
            rw [htasks₁] at hx
            rcases List.mem_append.1 hx with h | h
            · have := hbound x h; rw [hnext₁]; omega
            · rcases List.mem_singleton.1 h with rfl
              rw [hnext₁, hid₁]; omega)
          (by
            intro i hi
            rw [containsTask_append htasks₁ i, hbrief i hi, Bool.true_or])
          (by
            intro i hi
            rw [containsTask_append htasks₁ i]
            rcases List.mem_append.1 hi with h | h
            · rw [hgen i h, Bool.true_or]
            · rcases List.mem_singleton.1 h with rfl
              rw [beq_self_eq_true, Bool.or_true])
      have hcnt : countNonBlank (raw :: rest) = countNonBlank rest + 1 := by
        have hr : (!(strTrim raw == "")) = true := by
          simp [hblank]
        simp [countNonBlank, List.filter_cons, hr]
      refine ⟨c', gen', t₁ :: newTasks', ?_, ?_, ?_, ?_⟩
      · rw [heq]; exact h1
      · rw [h2, htasks₁, List.append_assoc, List.singleton_append]
      · rw [List.map_cons, h3, hcnt, hnext₁, hid₁, idRange_succ]
      · rw [h4, hnext₁, hcnt]
        push_cast
        ring

theorem assignStep_cons (briefDeps : List (String × List String))
    (b : BriefContent) (bs : List BriefContent) (c c' : TaskCollection)
    (gen : List Int)
    (hgen : genTasksForBrief b c briefDeps = .ok (c', gen)) :
    (b :: bs).foldlM (fun c0 b0 => do
        let (c1, _briefTaskIds) ← genTasksForBrief b0 c0 briefDeps
        (.ok c1 : Except String TaskCollection)) c
      = bs.foldlM (fun c0 b0 => do
        let (c1, _briefTaskIds) ← genTasksForBrief b0 c0 briefDeps
        (.ok c1 : Except String TaskCollection)) c' := by
  rw [List.foldlM_cons, hgen]
  rfl

theorem assignTaskIds_single {mgr : TaskIDManager} {c c' : TaskCollection}
    {b : BriefContent} {gen : List Int}
    (hex : mgr.existingCollection = some c)
    (hgen : genTasksForBrief b c (analyzeBriefDeps [b]) = .ok (c', gen)) :
    assignTaskIds mgr [b] = .ok c' := by
  simp only [assignTaskIds, hex]
  show ([b] : List BriefContent).foldlM (fun c0 b0 => do
      let (c1, _briefTaskIds) ← genTasksForBrief b0 c0 (analyzeBriefDeps [b])
      (.ok c1 : Except String TaskCollection)) c = .ok c'
  rw [assignStep_cons (analyzeBriefDeps [b]) b [] c c' gen hgen]
  rfl

/-- C1 counterexample: the document holds one task with maximal id 1 and the
extra brief holds `k = 1` non-blank raw task; the claimed run does not return
a collection carrying id 2 — it raises, because the non-blank raw parses to
an empty title and `create_task` rejects it. -/
theorem claim_C1_counterexample :
    countNonBlank c1BadBrief.tasks = 1 ∧
    ((do
      let mgr ← loadExisting c1Doc
      assignTaskIds mgr [c1BadBrief]) : Except String TaskCollection)
      = .error "Task title cannot be empty" :=
  ⟨rfl, rfl⟩

/-- C1 (amended): for a document with maximal id `N` whose task objects are
field-valid, and one additional brief each of whose non-blank raw tasks
parses to a non-blank title and description, `assign_task_ids` over the
loaded manager returns the loaded collection extended with exactly the new
tasks, whose ids are `N+1, ..., N+k` in intra-brief processing order, where
`k` counts the brief's non-blank raw tasks. -/
theorem claim_C1 (d : TasksDocument) (b : BriefContent) (N : Int)
    (hvalid : ∀ td ∈ d.tasks, taskDictValid td)
    (hub : ∀ td ∈ d.tasks, td.id ≤ N)
    (hattain : ∃ td ∈ d.tasks, td.id = N)
    (hclean : ∀ raw ∈ b.tasks, ¬ strTrim raw = "" →
      ¬ strTrim (parseTaskDescription raw).1 = "" ∧
      ¬ strTrim (parseTaskDescription raw).2 = "") :
    ∃ mgr c c' newTasks, loadExisting d = .ok mgr ∧
      mgr.existingCollection = some c ∧
      assignTaskIds mgr [b] = .ok c' ∧
      c'.tasks = c.tasks ++ newTasks ∧
      newTasks.map (fun t => t.id) = idRange (N + 1) (countNonBlank b.tasks) := by
  obtain ⟨c, hc, hnext, _, hbound0, _⟩ := foldLoad_ok d.tasks TaskCollection.empty hvalid
  have hboundc : ∀ t ∈ c.tasks, t.id < c.nextId :=
    hbound0 (fun t ht => absurd ht (List.not_mem_nil t))
  obtain ⟨tdN, htdN, htdNid⟩ := hattain
  have hNpos : 0 < N := by
    have h1 := (hvalid tdN htdN).2.2.1
    omega
  have hnextN : c.nextId = N + 1 := by
    rw [hnext]
    refine le_antisymm ?_ ?_
    · refine foldl_max_le d.tasks _ (N + 1) (by omega : (1:Int) ≤ N + 1) ?_
      intro td h
      have := hub td h
      omega
    · have h2 := mem_le_foldl_max d.tasks TaskCollection.empty.nextId tdN htdN
      omega
  have hfrom := fromTasksJson_of_fold hc
  have hrwL : loadExisting d = fromTasksJson d >>= fun cm =>
      if (getAllTasks cm.1).isEmpty then
        .ok { existingCollection := some cm.1, existingMetadata := some cm.2,
              nextAvailableId := 1, reservedIds := [] }
      else
        .ok { existingCollection := some cm.1, existingMetadata := some cm.2,
              nextAvailableId := (((getAllTasks cm.1).map (fun t => t.id)).foldl max 0) + 1,
              reservedIds := (getAllTasks cm.1).map (fun t => t.id) } := rfl
  rw [hfrom, ok_bind] at hrwL
  have hpos : (0:Int) < c.nextId := by rw [hnextN]; omega
  obtain ⟨c', gen', newTasks, hgen, hts, hids, _⟩ :=
    genLoop_ok (priorityForBriefType b.briefType)
      (resolveBriefDeps b (analyzeBriefDeps [b]) c) b.tasks 0 c [] hclean hpos
      hboundc (resolveBriefDeps_contains b (analyzeBriefDeps [b]) c)
      (fun i hi => absurd hi (List.not_mem_nil i))
  have hgen' : genTasksForBrief b c (analyzeBriefDeps [b]) = .ok (c', gen') := hgen
  have hidsN : newTasks.map (fun t => t.id)
      = idRange (N + 1) (countNonBlank b.tasks) := by
    rw [← hnextN]
    exact hids
  by_cases hemp : (getAllTasks c).isEmpty = true
  · rw [if_pos hemp] at hrwL
    exact ⟨_, c, c', newTasks, hrwL, rfl, assignTaskIds_single rfl hgen', hts, hidsN⟩
  · rw [if_neg hemp] at hrwL
    exact ⟨_, c, c', newTasks, hrwL, rfl, assignTaskIds_single rfl hgen', hts, hidsN⟩

/-- Witness for the amended C1 at the one-task document (maximal id 1) and
one clean brief with a single non-blank raw task. -/
theorem claim_C1_witness :
    ∃ mgr c c' newTasks, loadExisting c1Doc = .ok mgr ∧
      mgr.existingCollection = some c ∧
      assignTaskIds mgr [c1GoodBrief] = .ok c' ∧
      c'.tasks = c.tasks ++ newTasks ∧
      newTasks.map (fun t => t.id) = idRange (1 + 1) (countNonBlank c1GoodBrief.tasks) :=
  claim_C1 c1Doc c1GoodBrief 1 (by decide) (by decide) (by decide) (by decide)

theorem contains_eq_true_of_mem {l : List Int} {x : Int} (h : x ∈ l) :
    l.contains x = true := List.elem_eq_true_of_mem h

theorem not_mem_of_contains_eq_false {l : List Int} {x : Int}
    (h : l.contains x = false) : x ∉ l := by
  intro hm
  have h2 : l.contains x = true := List.elem_eq_true_of_mem hm
  rw [h] at h2
  exact Bool.false_ne_true h2

theorem addDep_fields (t : Task) (b : Int) :
    (t.addDep b).id = t.id ∧ (t.addDep b).title = t.title ∧
    (t.addDep b).description = t.description ∧
    (t.addDep b).priority = t.priority ∧ (t.addDep b).status = t.status := by
  unfold Task.addDep
  split
  · exact ⟨rfl, rfl, rfl, rfl, rfl⟩
  · exact ⟨rfl, rfl, rfl, rfl, rfl⟩

theorem addDep_self (t : Task) (b : Int)
    (h : t.dependencies.contains b = true) : t.addDep b = t := by
  unfold Task.addDep
  rw [if_pos h]

theorem addDep_deps (t : Task) (b : Int)
    (h : t.dependencies.contains b = false) :
    (t.addDep b).dependencies = t.dependencies ++ [b] := by
  unfold Task.addDep
  rw [if_neg (by rw [h]; exact Bool.false_ne_true)]

theorem applyStep_skip {θ : Rat} (acc : TaskCollection × Nat)
    (dep : DependencyRelationship) (h : dep.confidence < θ) :
    applyStep θ acc dep = acc := by
  unfold applyStep
  rw [if_pos h]

theorem applyStep_none {θ : Rat} {acc : TaskCollection × Nat}
    {dep : DependencyRelationship} (h1 : ¬ dep.confidence < θ)
    (h2 : getTask acc.1 dep.fromTaskId = none) :
    applyStep θ acc dep = acc := by
  unfold applyStep
  rw [if_neg h1, h2]

theorem applyStep_noapply {θ : Rat} {acc : TaskCollection × Nat}
    {dep : DependencyRelationship} {t : Task} (h1 : ¬ dep.confidence < θ)
    (h2 : getTask acc.1 dep.fromTaskId = some t)
    (h3 : (!(t.dependencies.contains dep.toTaskId)
      && dep.fromTaskId != dep.toTaskId) = false) :
    applyStep θ acc dep = acc := by
  unfold applyStep
  rw [if_neg h1, h2]
  show (if (!(t.dependencies.contains dep.toTaskId)
        && dep.fromTaskId != dep.toTaskId) = true
      then (addDepInCollection acc.1 dep.fromTaskId dep.toTaskId, acc.2 + 1)
      else acc) = acc
  rw [if_neg (by rw [h3]; exact Bool.false_ne_true)]

theorem applyStep_apply {θ : Rat} {acc : TaskCollection × Nat}
    {dep : DependencyRelationship} {t : Task} (h1 : ¬ dep.confidence < θ)
    (h2 : getTask acc.1 dep.fromTaskId = some t)
    (h3 : (!(t.dependencies.contains dep.toTaskId)
      && dep.fromTaskId != dep.toTaskId) = true) :
    applyStep θ acc dep
      = (addDepInCollection acc.1 dep.fromTaskId dep.toTaskId, acc.2 + 1) := by
  unfold applyStep
  rw [if_neg h1, h2]
  show (if (!(t.dependencies.contains dep.toTaskId)
        && dep.fromTaskId != dep.toTaskId) = true
      then (addDepInCollection acc.1 dep.fromTaskId dep.toTaskId, acc.2 + 1)
      else acc)
      = (addDepInCollection acc.1 dep.fromTaskId dep.toTaskId, acc.2 + 1)
  rw [if_pos h3]

theorem forall₂_map_eq {α β : Type} {R : α → α → Prop} {f : α → β}
    (hR : ∀ a b, R a b → f a = f b) :
    ∀ {l₁ l₂ : List α}, List.Forall₂ R l₁ l₂ → l₁.map f = l₂.map f := by
  intro l₁ l₂ h
  induction h with
  | nil => rfl
  | cons hab htail ih =>
    rw [List.map_cons, List.map_cons, hR _ _ hab, ih]

theorem forall₂_map_right {α β : Type} {R : α → β → Prop} {g : β → β} :
    ∀ {l₁ : List α} {l₂ : List β}, List.Forall₂ R l₁ l₂ →
    (∀ a b, a ∈ l₁ → b ∈ l₂ → R a b → R a (g b)) →
    List.Forall₂ R l₁ (l₂.map g) := by
  intro l₁ l₂ h
  induction h with
  | nil => intro _; exact List.Forall₂.nil
  | cons hab htail ih =>
    intro hg
    rw [List.map_cons]
    exact List.Forall₂.cons
      (hg _ _ (List.mem_cons_self _ _) (List.mem_cons_self _ _) hab)
      (ih (fun a b ha hb hr =>
        hg a b (List.mem_cons_of_mem _ ha) (List.mem_cons_of_mem _ hb) hr))

theorem forall₂_map_left {α β : Type} {R : α → β → Prop} {f : α → α} :
    ∀ {l₁ : List α} {l₂ : List β}, List.Forall₂ R l₁ l₂ →
    (∀ a b, a ∈ l₁ → b ∈ l₂ → R a b → R (f a) b) →
    List.Forall₂ R (l₁.map f) l₂ := by
  intro l₁ l₂ h
  induction h with
  | nil => intro _; exact List.Forall₂.nil
  | cons hab htail ih =>
    intro hf
    rw [List.map_cons]
    exact List.Forall₂.cons
      (hf _ _ (List.mem_cons_self _ _) (List.mem_cons_self _ _) hab)
      (ih (fun a b ha hb hr =>
        hf a b (List.mem_cons_of_mem _ ha) (List.mem_cons_of_mem _ hb) hr))

theorem forall₂_map_both {α β : Type} {R : α → β → Prop} {f : α → α} {g : β → β} :
    ∀ {l₁ : List α} {l₂ : List β}, List.Forall₂ R l₁ l₂ →
    (∀ a b, a ∈ l₁ → b ∈ l₂ → R a b → R (f a) (g b)) →
    List.Forall₂ R (l₁.map f) (l₂.map g) := by
  intro l₁ l₂ h
  induction h with
  | nil => intro _; exact List.Forall₂.nil
  | cons hab htail ih =>
    intro hfg
    rw [List.map_cons, List.map_cons]
    exact List.Forall₂.cons
      (hfg _ _ (List.mem_cons_self _ _) (List.mem_cons_self _ _) hab)
      (ih (fun a b ha hb hr =>
        hfg a b (List.mem_cons_of_mem _ ha) (List.mem_cons_of_mem _ hb) hr))

theorem forall₂_find?_some {R : Task → Task → Prop}
    (hid : ∀ a b, R a b → a.id = b.id) :
    ∀ {l₁ l₂ : List Task}, List.Forall₂ R l₁ l₂ →
    ∀ {a : Int} {t₁ : Task}, l₁.find? (fun t => t.id == a) = some t₁ →
    ∃ t₂, l₂.find? (fun t => t.id == a) = some t₂ ∧ R t₁ t₂ := by
  intro l₁ l₂ h
  induction h with
  | nil => intro a t₁ hf; cases hf
  | @cons x y l₁ l₂ hab htail ih =>
    intro a t₁ hf
    by_cases hx : (x.id == a) = true
    · have hrw : List.find? (fun t => t.id == a) (x :: l₁) = some x :=
        List.find?_cons_of_pos l₁ hx
      rw [hrw] at hf
      have hxt : x = t₁ := Option.some.inj hf
      subst hxt
      have hy : (y.id == a) = true := by
        rw [← hid x y hab]
        exact hx
      have hrw₂ : List.find? (fun t => t.id == a) (y :: l₂) = some y :=
        List.find?_cons_of_pos l₂ hy
      exact ⟨y, hrw₂, hab⟩
    · have hrw : List.find? (fun t => t.id == a) (x :: l₁)
          = List.find? (fun t => t.id == a) l₁ :=
        List.find?_cons_of_neg l₁ hx
      rw [hrw] at hf
      obtain ⟨t₂, hf₂, hr⟩ := ih hf
      have hy : ¬ (y.id == a) = true := by
        rw [← hid x y hab]
        exact hx
      have hrw₂ : List.find? (fun t => t.id == a) (y :: l₂)
          = List.find? (fun t => t.id == a) l₂ :=
        List.find?_cons_of_neg l₂ hy
      refine ⟨t₂, ?_, hr⟩
      rw [hrw₂]
      exact hf₂

theorem find?_unique_task {ts : List Task} {t x : Task} {a : Int}
    (hnd : (ts.map (fun y => y.id)).Nodup)
    (hf : ts.find? (fun y => y.id == a) = some t)
    (hx : x ∈ ts) (hxa : (x.id == a) = true) : x = t := by
  have h2 : (t.id == a) = true := by
    have h3 := List.find?_some hf
    exact h3
  refine List.inj_on_of_nodup_map hnd hx (List.mem_of_find?_eq_some hf) ?_
  exact (eq_of_beq hxa).trans (eq_of_beq h2).symm

theorem map_update_ids (ts : List Task) (a b : Int) :
    (ts.map (fun x => if x.id == a then x.addDep b else x)).map (fun t => t.id)
      = ts.map (fun t => t.id) := by
  rw [List.map_map]
  refine List.map_congr_left ?_
  intro x _
  simp only [Function.comp]
  by_cases hx : (x.id == a) = true
  · rw [if_pos hx, (addDep_fields x b).1]
  · rw [if_neg hx]

theorem totalDeps_update (a b : Int) (t : Task) :
    ∀ (ts : List Task), ts.find? (fun x => x.id == a) = some t →
    (ts.map (fun x => x.id)).Nodup →
    t.dependencies.contains b = false →
    totalDeps (ts.map (fun x => if x.id == a then x.addDep b else x))
      = totalDeps ts + 1 := by
  intro ts
  induction ts with
  | nil => intro h _ _; cases h
  | cons x rest ih =>
    intro hfind hnd hcont
    rw [List.map_cons]
    by_cases hx : (x.id == a) = true
    · have hxt : x = t := by
        have hrw : List.find? (fun x => x.id == a) (x :: rest) = some x :=
          List.find?_cons_of_pos rest hx
        rw [hrw] at hfind
        exact Option.some.inj hfind
      rw [if_pos hx]
      have hnotin : x.id ∉ rest.map (fun z => z.id) := by
        rw [List.map_cons] at hnd
        exact (List.nodup_cons.1 hnd).1
      have hrest : rest.map (fun y => if y.id == a then y.addDep b else y)
          = rest := by
        have hall : ∀ y ∈ rest,
            (if y.id == a then y.addDep b else y) = id y := by
          intro y hy
          have hyne : ¬ (y.id == a) = true := by
            intro hyq
            refine hnotin ?_
            exact List.mem_map.2
              ⟨y, hy, (eq_of_beq hyq).trans (eq_of_beq hx).symm⟩
          rw [if_neg hyne]
          rfl
        rw [List.map_congr_left hall, List.map_id]
      rw [hrest]
      show totalDeps ((x.addDep b) :: rest) = totalDeps (x :: rest) + 1
      simp only [totalDeps, List.map_cons, List.sum_cons]
      rw [hxt, addDep_deps t b hcont, List.length_append,
        List.length_singleton]
      omega
    · rw [if_neg hx]
      have hfind' : rest.find? (fun x => x.id == a) = some t := by
        have hrw : List.find? (fun x => x.id == a) (x :: rest)
            = List.find? (fun x => x.id == a) rest :=
          List.find?_cons_of_neg rest hx
        rw [hrw] at hfind
        exact hfind
      have hnd' : (rest.map (fun x => x.id)).Nodup := by
        rw [List.map_cons] at hnd
        exact (List.nodup_cons.1 hnd).2
      have hih := ih hfind' hnd' hcont
      simp only [totalDeps, List.map_cons, List.sum_cons]
      simp only [totalDeps] at hih
      omega

theorem taskExtended_refl (sugg : List DependencyRelationship) (θ : Rat) :
    ∀ (ts : List Task), List.Forall₂ (taskExtended sugg θ) ts ts := by
  intro ts
  induction ts with
  | nil => exact List.Forall₂.nil
  | cons t ts ih =>
    refine List.Forall₂.cons ?_ ih
    exact ⟨rfl, rfl, rfl, rfl, rfl, [], (List.append_nil _).symm, List.nodup_nil,
      fun e he => absurd he (List.not_mem_nil e)⟩

theorem depsExtendPair_refl : ∀ (ts : List Task),
    List.Forall₂ depsExtendPair ts ts := by
  intro ts
  induction ts with
  | nil => exact List.Forall₂.nil
  | cons t ts ih =>
    refine List.Forall₂.cons ?_ ih
    exact ⟨rfl, t.dependencies, [], [], (List.append_nil _).symm,
      (List.append_nil _).symm, fun x hx => hx, List.nodup_nil,
      fun x hx => absurd hx (List.not_mem_nil x)⟩

theorem depsExtendPair_length {tH tL : Task} (h : depsExtendPair tH tL) :
    tH.dependencies.length ≤ tL.dependencies.length := by
  obtain ⟨_, ds, eH, eL, h1, h2, hsub, hnd, _⟩ := h
  rw [h1, h2, List.length_append, List.length_append]
  have := List.Subperm.length_le (List.subperm_of_subset hnd hsub)
  omega

theorem forall₂_totalDeps_le :
    ∀ {l₁ l₂ : List Task}, List.Forall₂ depsExtendPair l₁ l₂ →
    totalDeps l₁ ≤ totalDeps l₂ := by
  intro l₁ l₂ h
  induction h with
  | nil => exact le_refl _
  | cons hab htail ih =>
    simp only [totalDeps, List.map_cons, List.sum_cons]
    have h1 := depsExtendPair_length hab
    simp only [totalDeps] at ih
    omega

theorem depsExtendPair_addDep {a b : Task} (e : Int)
    (hab : depsExtendPair a b) : depsExtendPair (a.addDep e) (b.addDep e) := by
  obtain ⟨hid, ds, eH, eL, h1, h2, hsub, hndE, hdis⟩ := hab
  by_cases hca : a.dependencies.contains e = true
  · rw [addDep_self a e hca]
    by_cases hcb : b.dependencies.contains e = true
    · rw [addDep_self b e hcb]
      exact ⟨hid, ds, eH, eL, h1, h2, hsub, hndE, hdis⟩
    · have hcb' : b.dependencies.contains e = false := by
        rw [Bool.not_eq_true] at hcb
        exact hcb
      refine ⟨?_, ds, eH, eL ++ [e], h1, ?_, ?_, hndE, hdis⟩
      · rw [(addDep_fields b e).1]
        exact hid
      · rw [addDep_deps b e hcb', h2, List.append_assoc]
      · intro x hx
        exact List.mem_append_left _ (hsub x hx)
  · have hca' : a.dependencies.contains e = false := by
      rw [Bool.not_eq_true] at hca
      exact hca
    have henotH : e ∉ a.dependencies := not_mem_of_contains_eq_false hca'
    have hnotds : e ∉ ds := fun hm =>
      henotH (by rw [h1]; exact List.mem_append_left _ hm)
    have hnoteH : e ∉ eH := fun hm =>
      henotH (by rw [h1]; exact List.mem_append_right _ hm)
    have hndE' : (eH ++ [e]).Nodup := by
      refine List.Nodup.append hndE (List.nodup_singleton _) ?_
      intro x hx hx2
      rcases List.mem_singleton.1 hx2 with rfl
      exact hnoteH hx
    have hdis' : ∀ x ∈ eH ++ [e], x ∉ ds := by
      intro x hx
      rcases List.mem_append.1 hx with h | h
      · exact hdis x h
      · rcases List.mem_singleton.1 h with rfl
        exact hnotds
    by_cases hcb : b.dependencies.contains e = true
    · rw [addDep_self b e hcb]
      have heL : e ∈ eL := by
        have hm := List.mem_of_elem_eq_true hcb
        rw [h2] at hm
        rcases List.mem_append.1 hm with h | h
        · exact absurd h hnotds
        · exact h
      refine ⟨?_, ds, eH ++ [e], eL, ?_, h2, ?_, hndE', hdis'⟩
      · rw [(addDep_fields a e).1]
        exact hid
      · rw [addDep_deps a e hca', h1, List.append_assoc]
      · intro x hx
        rcases List.mem_append.1 hx with h | h
        · exact hsub x h
        · rcases List.mem_singleton.1 h with rfl
          exact heL
    · have hcb' : b.dependencies.contains e = false := by
        rw [Bool.not_eq_true] at hcb
        exact hcb
      refine ⟨?_, ds, eH ++ [e], eL ++ [e], ?_, ?_, ?_, hndE', hdis'⟩
      · rw [(addDep_fields a e).1, (addDep_fields b e).1]
        exact hid
      · rw [addDep_deps a e hca', h1, List.append_assoc]
      · rw [addDep_deps b e hcb', h2, List.append_assoc]
      · intro x hx
        rcases List.mem_append.1 hx with h | h
        · exact List.mem_append_left _ (hsub x h)
        · rcases List.mem_singleton.1 h with rfl
          exact List.mem_append_right _ (List.mem_singleton.2 rfl)

/-- Master lemma for one `apply_dependencies` run: the fold only ever
appends qualified edges and its counter tracks the total number of
dependency entries added. -/
theorem applyFold_ok (θ : Rat) (FULL : List DependencyRelationship) :
    ∀ (sugg : List DependencyRelationship), (∀ d ∈ sugg, d ∈ FULL) →
    ∀ (c₀ c : TaskCollection) (n : Nat),
    List.Forall₂ (taskExtended FULL θ) c₀.tasks c.tasks →
    totalDeps c.tasks = totalDeps c₀.tasks + n →
    (c₀.tasks.map (fun t => t.id)).Nodup →
    List.Forall₂ (taskExtended FULL θ) c₀.tasks
        (sugg.foldl (applyStep θ) (c, n)).1.tasks ∧
      totalDeps (sugg.foldl (applyStep θ) (c, n)).1.tasks
        = totalDeps c₀.tasks + (sugg.foldl (applyStep θ) (c, n)).2 := by
  intro sugg
  induction sugg with
  | nil => intro _ c₀ c n hrel htot _; exact ⟨hrel, htot⟩
  | cons dep rest ih =>
    intro hsub c₀ c n hrel htot hnd
    rw [List.foldl_cons]
    by_cases h1 : dep.confidence < θ
    · rw [applyStep_skip (c, n) dep h1]
      exact ih (fun d hd => hsub d (List.mem_cons_of_mem dep hd)) c₀ c n hrel htot hnd
    · cases hf : getTask c dep.fromTaskId with
      | none =>
        rw [applyStep_none h1 hf]
        exact ih (fun d hd => hsub d (List.mem_cons_of_mem dep hd)) c₀ c n hrel htot hnd
      | some t =>
        by_cases hg : (!(t.dependencies.contains dep.toTaskId)
            && dep.fromTaskId != dep.toTaskId) = true
        · rw [applyStep_apply h1 hf hg]
          have hg2 := hg
          rw [Bool.and_eq_true] at hg2
          obtain ⟨hg21, hg22⟩ := hg2
          have hcont : t.dependencies.contains dep.toTaskId = false := by
            cases hcc : t.dependencies.contains dep.toTaskId with
            | false => rfl
            | true => rw [hcc] at hg21; exact absurd hg21 (by decide)
          have hne : dep.fromTaskId ≠ dep.toTaskId := bne_iff_ne.1 hg22
          have hidse : c₀.tasks.map (fun t => t.id) = c.tasks.map (fun t => t.id) :=
            forall₂_map_eq (fun a b hab => hab.1.symm) hrel
          have hndc : (c.tasks.map (fun t => t.id)).Nodup := by
            rw [← hidse]
            exact hnd
          have hrel' : List.Forall₂ (taskExtended FULL θ) c₀.tasks
              ((addDepInCollection c dep.fromTaskId dep.toTaskId).tasks) := by
            show List.Forall₂ (taskExtended FULL θ) c₀.tasks
              (c.tasks.map (fun x => if x.id == dep.fromTaskId
                then x.addDep dep.toTaskId else x))
            refine forall₂_map_right hrel ?_
            intro a b _ _ hab
            by_cases hbid : (b.id == dep.fromTaskId) = true
            · rw [if_pos hbid]
              by_cases hcb : b.dependencies.contains dep.toTaskId = true
              · rw [addDep_self b dep.toTaskId hcb]
                exact hab
              · have hcb' : b.dependencies.contains dep.toTaskId = false := by
                  rw [Bool.not_eq_true] at hcb
                  exact hcb
                have hbnot : dep.toTaskId ∉ b.dependencies :=
                  not_mem_of_contains_eq_false hcb'
                obtain ⟨hid, hti, hde, hpr, hst, extra, hdeps, hndE, hqual⟩ := hab
                refine ⟨?_, ?_, ?_, ?_, ?_, extra ++ [dep.toTaskId], ?_, ?_, ?_⟩
                · rw [(addDep_fields b dep.toTaskId).1, hid]
                · rw [(addDep_fields b dep.toTaskId).2.1, hti]
                · rw [(addDep_fields b dep.toTaskId).2.2.1, hde]
                · rw [(addDep_fields b dep.toTaskId).2.2.2.1, hpr]
                · rw [(addDep_fields b dep.toTaskId).2.2.2.2, hst]
                · rw [addDep_deps b dep.toTaskId hcb', hdeps, List.append_assoc]
                · refine List.Nodup.append hndE (List.nodup_singleton _) ?_
                  intro x hx hx2
                  rcases List.mem_singleton.1 hx2 with rfl
                  exact hbnot (by rw [hdeps]; exact List.mem_append_right _ hx)
                · intro e he
                  rcases List.mem_append.1 he with h | h
                  · exact hqual e h
                  · rcases List.mem_singleton.1 h with rfl
                    refine ⟨?_, ?_, dep, hsub dep (List.mem_cons_self dep rest),
                      (eq_of_beq hbid).symm.trans hid, rfl, not_lt.1 h1⟩
                    · intro hm
                      exact hbnot (by rw [hdeps]; exact List.mem_append_left _ hm)
                    · intro hEq
                      exact hne ((eq_of_beq hbid).symm.trans (hid.trans hEq.symm))
            · rw [if_neg hbid]
              exact hab
          have htot' : totalDeps
              ((addDepInCollection c dep.fromTaskId dep.toTaskId).tasks)
              = totalDeps c₀.tasks + (n + 1) := by
            show totalDeps (c.tasks.map (fun x => if x.id == dep.fromTaskId
              then x.addDep dep.toTaskId else x)) = totalDeps c₀.tasks + (n + 1)
            rw [totalDeps_update dep.fromTaskId dep.toTaskId t c.tasks hf hndc hcont,
              htot]
            omega
          exact ih (fun d hd => hsub d (List.mem_cons_of_mem dep hd)) c₀
            (addDepInCollection c dep.fromTaskId dep.toTaskId) (n + 1) hrel' htot' hnd
        · have hg' : (!(t.dependencies.contains dep.toTaskId)
              && dep.fromTaskId != dep.toTaskId) = false := by
            rw [Bool.not_eq_true] at hg
            exact hg
          rw [applyStep_noapply h1 hf hg']
          exact ih (fun d hd => hsub d (List.mem_cons_of_mem dep hd)) c₀ c n hrel htot hnd

/-- Master lemma comparing two `apply_dependencies` runs over the same
suggestions at a higher threshold `θH` and a lower threshold `θL`: the
higher run's dependency lists stay duplicate-free extensions contained in
the lower run's. -/
theorem applyFold_mono (θL θH : Rat) (hθ : θL ≤ θH) :
    ∀ (sugg : List DependencyRelationship) (cH cL : TaskCollection) (nH nL : Nat),
    List.Forall₂ depsExtendPair cH.tasks cL.tasks →
    (cH.tasks.map (fun t => t.id)).Nodup →
    List.Forall₂ depsExtendPair
      (sugg.foldl (applyStep θH) (cH, nH)).1.tasks
      (sugg.foldl (applyStep θL) (cL, nL)).1.tasks := by
  intro sugg
  induction sugg with
  | nil => intro cH cL nH nL hrel _; exact hrel
  | cons dep rest ih =>
    intro cH cL nH nL hrel hnd
    rw [List.foldl_cons, List.foldl_cons]
    have hids : cH.tasks.map (fun t => t.id) = cL.tasks.map (fun t => t.id) :=
      forall₂_map_eq (fun a b hab => hab.1) hrel
    have hndL : (cL.tasks.map (fun t => t.id)).Nodup := by
      rw [← hids]
      exact hnd
    by_cases hH : dep.confidence < θH
    · rw [applyStep_skip (cH, nH) dep hH]
      by_cases hL : dep.confidence < θL
      · rw [applyStep_skip (cL, nL) dep hL]
        exact ih cH cL nH nL hrel hnd
      · cases hfL : getTask cL dep.fromTaskId with
        | none =>
          rw [applyStep_none hL hfL]
          exact ih cH cL nH nL hrel hnd
        | some tL =>
          by_cases hgL : (!(tL.dependencies.contains dep.toTaskId)
              && dep.fromTaskId != dep.toTaskId) = true
          · rw [applyStep_apply hL hfL hgL]
            refine ih cH _ nH _ ?_ hnd
            show List.Forall₂ depsExtendPair cH.tasks
              (cL.tasks.map (fun x => if x.id == dep.fromTaskId
                then x.addDep dep.toTaskId else x))
            refine forall₂_map_right hrel ?_
            intro a b _ _ hab
            by_cases hbid : (b.id == dep.fromTaskId) = true
            · rw [if_pos hbid]
              by_cases hcb : b.dependencies.contains dep.toTaskId = true
              · rw [addDep_self b dep.toTaskId hcb]
                exact hab
              · have hcb' : b.dependencies.contains dep.toTaskId = false := by
                  rw [Bool.not_eq_true] at hcb
                  exact hcb
                obtain ⟨hid, ds, eH, eL, h1, h2, hsub, hndE, hdis⟩ := hab
                refine ⟨?_, ds, eH, eL ++ [dep.toTaskId], h1, ?_, ?_, hndE, hdis⟩
                · rw [(addDep_fields b dep.toTaskId).1]
                  exact hid
                · rw [addDep_deps b dep.toTaskId hcb', h2, List.append_assoc]
                · intro x hx
                  exact List.mem_append_left _ (hsub x hx)
            · rw [if_neg hbid]
              exact hab
          · have hgL' : (!(tL.dependencies.contains dep.toTaskId)
                && dep.fromTaskId != dep.toTaskId) = false := by
              rw [Bool.not_eq_true] at hgL
              exact hgL
            rw [applyStep_noapply hL hfL hgL']
            exact ih cH cL nH nL hrel hnd
    · have hL : ¬ dep.confidence < θL := not_lt.2 (le_trans hθ (not_lt.1 hH))
      cases hfH : getTask cH dep.fromTaskId with
      | none =>
        have hfL : getTask cL dep.fromTaskId = none := by
          refine List.find?_eq_none.2 ?_
          intro tL htL
          have hmm : tL.id ∈ cL.tasks.map (fun t => t.id) :=
            List.mem_map_of_mem _ htL
          rw [← hids] at hmm
          obtain ⟨tH, htH, hEq⟩ := List.mem_map.1 hmm
          have hnone := List.find?_eq_none.1 hfH tH htH
          intro hcc
          refine hnone ?_
          show (tH.id == dep.fromTaskId) = true
          rw [hEq]
          exact hcc
        rw [applyStep_none hH hfH, applyStep_none hL hfL]
        exact ih cH cL nH nL hrel hnd
      | some tH =>
        obtain ⟨tL, hfL, hpair⟩ := forall₂_find?_some (fun a b hab => hab.1) hrel hfH
        have hfL' : getTask cL dep.fromTaskId = some tL := hfL
        by_cases hself : (dep.fromTaskId != dep.toTaskId) = true
        · by_cases hcH : tH.dependencies.contains dep.toTaskId = true
          · have hgH : (!(tH.dependencies.contains dep.toTaskId)
                && dep.fromTaskId != dep.toTaskId) = false := by
              rw [hcH]
              rfl
            have hcL2 : tL.dependencies.contains dep.toTaskId = true := by
              obtain ⟨hid, ds, eH, eL, h1, h2, hsub, hndE, hdis⟩ := hpair
              have hmem : dep.toTaskId ∈ tH.dependencies :=
                List.mem_of_elem_eq_true hcH
              rw [h1] at hmem
              refine contains_eq_true_of_mem ?_
              rw [h2]
              rcases List.mem_append.1 hmem with h | h
              · exact List.mem_append_left _ h
              · exact List.mem_append_right _ (hsub _ h)
            have hgL : (!(tL.dependencies.contains dep.toTaskId)
                && dep.fromTaskId != dep.toTaskId) = false := by
              rw [hcL2]
              rfl
            rw [applyStep_noapply hH hfH hgH, applyStep_noapply hL hfL' hgL]
            exact ih cH cL nH nL hrel hnd
          · have hcH' : tH.dependencies.contains dep.toTaskId = false := by
              rw [Bool.not_eq_true] at hcH
              exact hcH
            have hgH : (!(tH.dependencies.contains dep.toTaskId)
                && dep.fromTaskId != dep.toTaskId) = true := by
              rw [hcH', hself]
              rfl
            by_cases hcL2 : tL.dependencies.contains dep.toTaskId = true
            · have hgL : (!(tL.dependencies.contains dep.toTaskId)
                  && dep.fromTaskId != dep.toTaskId) = false := by
                rw [hcL2]
                rfl
              rw [applyStep_apply hH hfH hgH, applyStep_noapply hL hfL' hgL]
              refine ih _ cL _ nL ?_ ?_
              · show List.Forall₂ depsExtendPair
                  (cH.tasks.map (fun x => if x.id == dep.fromTaskId
                    then x.addDep dep.toTaskId else x)) cL.tasks
                refine forall₂_map_left hrel ?_
                intro a b ha hb hab
                by_cases haid : (a.id == dep.fromTaskId) = true
                · rw [if_pos haid]
                  have hat : a = tH := find?_unique_task hnd hfH ha haid
                  have hbid : (b.id == dep.fromTaskId) = true := by
                    rw [← hab.1]
                    exact haid
                  have hbt : b = tL := find?_unique_task hndL hfL hb hbid
                  subst hat
                  subst hbt
                  obtain ⟨hid, ds, eH, eL, h1, h2, hsub, hndE, hdis⟩ := hab
                  have htonotH : dep.toTaskId ∉ a.dependencies :=
                    not_mem_of_contains_eq_false hcH'
                  have hnotds : dep.toTaskId ∉ ds := fun hm =>
                    htonotH (by rw [h1]; exact List.mem_append_left _ hm)
                  have hnoteH : dep.toTaskId ∉ eH := fun hm =>
                    htonotH (by rw [h1]; exact List.mem_append_right _ hm)
                  have htoE : dep.toTaskId ∈ eL := by
                    have hm := List.mem_of_elem_eq_true hcL2
                    rw [h2] at hm
                    rcases List.mem_append.1 hm with h | h
                    · exact absurd h hnotds
                    · exact h
                  refine ⟨?_, ds, eH ++ [dep.toTaskId], eL, ?_, h2, ?_, ?_, ?_⟩
                  · rw [(addDep_fields a dep.toTaskId).1]
                    exact hid
                  · rw [addDep_deps a dep.toTaskId hcH', h1, List.append_assoc]
                  · intro x hx
                    rcases List.mem_append.1 hx with h | h
                    · exact hsub x h
                    · rcases List.mem_singleton.1 h with rfl
                      exact htoE
                  · refine List.Nodup.append hndE (List.nodup_singleton _) ?_
                    intro x hx hx2
                    rcases List.mem_singleton.1 hx2 with rfl
                    exact hnoteH hx
                  · intro x hx
                    rcases List.mem_append.1 hx with h | h
                    · exact hdis x h
                    · rcases List.mem_singleton.1 h with rfl
                      exact hnotds
                · rw [if_neg haid]
                  exact hab
              · show ((cH.tasks.map (fun x => if x.id == dep.fromTaskId
                    then x.addDep dep.toTaskId else x)).map (fun t => t.id)).Nodup
                rw [map_update_ids]
                exact hnd
            · rw [applyStep_apply hH hfH hgH]
              have hcL2' : tL.dependencies.contains dep.toTaskId = false := by
                rw [Bool.not_eq_true] at hcL2
                exact hcL2
              have hgL : (!(tL.dependencies.contains dep.toTaskId)
                  && dep.fromTaskId != dep.toTaskId) = true := by
                rw [hcL2', hself]
                rfl
              rw [applyStep_apply hL hfL' hgL]
              refine ih _ _ _ _ ?_ ?_
              · show List.Forall₂ depsExtendPair
                  (cH.tasks.map (fun x => if x.id == dep.fromTaskId
                    then x.addDep dep.toTaskId else x))
                  (cL.tasks.map (fun x => if x.id == dep.fromTaskId
                    then x.addDep dep.toTaskId else x))
                refine forall₂_map_both hrel ?_
                intro a b _ _ hab
                by_cases haid : (a.id == dep.fromTaskId) = true
                · have hbid : (b.id == dep.fromTaskId) = true := by
                    rw [← hab.1]
                    exact haid
                  rw [if_pos haid, if_pos hbid]
                  exact depsExtendPair_addDep dep.toTaskId hab
                · have hbid : ¬ (b.id == dep.fromTaskId) = true := by
                    rw [← hab.1]
                    exact haid
                  rw [if_neg haid, if_neg hbid]
                  exact hab
              · show ((cH.tasks.map (fun x => if x.id == dep.fromTaskId
                    then x.addDep dep.toTaskId else x)).map (fun t => t.id)).Nodup
                rw [map_update_ids]
                exact hnd
        · have hself' : (dep.fromTaskId != dep.toTaskId) = false := by
            rw [Bool.not_eq_true] at hself
            exact hself
          have hgH : (!(tH.dependencies.contains dep.toTaskId)
              && dep.fromTaskId != dep.toTaskId) = false := by
            rw [hself']
            exact Bool.and_false _
          have hgL : (!(tL.dependencies.contains dep.toTaskId)
              && dep.fromTaskId != dep.toTaskId) = false := by
            rw [hself']
            exact Bool.and_false _
          rw [applyStep_noapply hH hfH hgH, applyStep_noapply hL hfL' hgL]
          exact ih cH cL nH nL hrel hnd

/-- C3: `apply_dependencies` only ever appends to dependency lists edges
from suggestions at or above the threshold, never self-edges, never an edge
already present; the returned count is exactly the number of dependency
entries added; and on the same collection and suggestions a 0.9-style
higher threshold applies at most as many edges as a 0.5-style lower one.
The id-uniqueness hypothesis is the invariant Python's dict-keyed task
storage maintains by construction. -/
theorem claim_C3 (c : TaskCollection) (sugg : List DependencyRelationship)
    (θ θ' : Rat) (hNodup : (c.tasks.map (fun t => t.id)).Nodup) (hθ : θ ≤ θ') :
    List.Forall₂ (taskExtended sugg θ) c.tasks (applyDependencies c sugg θ).1.tasks ∧
    totalDeps (applyDependencies c sugg θ).1.tasks
      = totalDeps c.tasks + (applyDependencies c sugg θ).2 ∧
    (applyDependencies c sugg θ').2 ≤ (applyDependencies c sugg θ).2 := by
  have e1 : applyDependencies c sugg θ = sugg.foldl (applyStep θ) (c, 0) := rfl
  have e2 : applyDependencies c sugg θ' = sugg.foldl (applyStep θ') (c, 0) := rfl
  obtain ⟨hFa, hTot⟩ := applyFold_ok θ sugg sugg (fun d hd => hd) c c 0
    (taskExtended_refl sugg θ c.tasks) (by omega) hNodup
  obtain ⟨hFa', hTot'⟩ := applyFold_ok θ' sugg sugg (fun d hd => hd) c c 0
    (taskExtended_refl sugg θ' c.tasks) (by omega) hNodup
  have hmono := applyFold_mono θ θ' hθ sugg c c 0 0
    (depsExtendPair_refl c.tasks) hNodup
  have hle := forall₂_totalDeps_le hmono
  refine ⟨?_, ?_, ?_⟩
  · rw [e1]
    exact hFa
  · rw [e1]
    exact hTot
  · rw [e1, e2]
    omega

/-- Witness for C3 at a two-task collection and one suggestion of
confidence 0.6, compared at thresholds 0.9 and 0.5. -/
theorem claim_C3_witness :
    List.Forall₂ (taskExtended c3Sugg (mkRat 5 10)) c3Collection.tasks
      (applyDependencies c3Collection c3Sugg (mkRat 5 10)).1.tasks ∧
    totalDeps (applyDependencies c3Collection c3Sugg (mkRat 5 10)).1.tasks
      = totalDeps c3Collection.tasks
        + (applyDependencies c3Collection c3Sugg (mkRat 5 10)).2 ∧
    (applyDependencies c3Collection c3Sugg (mkRat 9 10)).2
      ≤ (applyDependencies c3Collection c3Sugg (mkRat 5 10)).2 :=
  claim_C3 c3Collection c3Sugg (mkRat 5 10) (mkRat 9 10) (by decide) (by decide)

end Parsinator
